import Mathlib

/-!
Verification development for the math-buddy backend.

The central object is `clean_reasoning_output` from
`src/backend/services/llm.py`: a text-to-text transform that strips
reasoning-model scaffolding tags (`<think>`/`<thinking>` pairs in any case
and any combination of spellings) and renormalizes whitespace and markdown
structure.  Text is modelled as `List Char`.  Python's `re.sub` passes are
modelled by executable scanners; the case-insensitive matching of the ASCII
tag patterns is modelled with `Char.toLower`, and Python's `\s` class and
`str.strip()` whitespace are modelled by the ASCII whitespace set
(space, tab, newline, carriage return, vertical tab, form feed).

The quiz-session data model from `src/backend/services/question_parser.py`
and the in-memory storage from `src/backend/services/quiz_storage.py` are
modelled with association lists mirroring Python dict semantics
(insertion order, replace-on-duplicate-key).
-/

/-- Python `\s` / `str.strip()` whitespace, restricted to the ASCII set. -/
def isWS (c : Char) : Bool :=
  c = ' ' || c = '\t' || c = '\n' || c = '\r' || c = '\x0b' || c = '\x0c'

/-- The character class `[ \t]` of the horizontal-whitespace collapsing pass. -/
def isST (c : Char) : Bool :=
  c = ' ' || c = '\t'

/-- Case-insensitive match of the (lowercase) pattern `p` against the first
`p.length` characters of `s`, as Python `re` matches a literal ASCII pattern
under `re.IGNORECASE`. -/
def ciMatch : List Char → List Char → Bool
  | [], _ => true
  | _ :: _, [] => false
  | p :: ps, c :: cs => (c.toLower = p) && ciMatch ps cs

/-- Leftmost case-insensitive occurrence of the literal pattern `p` in `s`:
returns the text before the occurrence and the text after it. -/
def findCI (p : List Char) : List Char → Option (List Char × List Char)
  | [] => if ciMatch p [] then some ([], []) else none
  | c :: cs =>
    if ciMatch p (c :: cs) then some ([], (c :: cs).drop p.length)
    else
      match findCI p cs with
      | some (b, a) => some (c :: b, a)
      | none => none

/-- `occB p s` decides whether the pattern `p` occurs case-insensitively
anywhere in `s`. -/
def occB (p : List Char) : List Char → Bool
  | [] => ciMatch p []
  | c :: cs => ciMatch p (c :: cs) || occB p cs

/-- The opening tag `<think>` (as a lowercase pattern). -/
abbrev oT : List Char := ['<', 't', 'h', 'i', 'n', 'k', '>']

/-- The closing tag `</think>`. -/
abbrev cT : List Char := ['<', '/', 't', 'h', 'i', 'n', 'k', '>']

/-- The opening tag `<thinking>`. -/
abbrev oTg : List Char := ['<', 't', 'h', 'i', 'n', 'k', 'i', 'n', 'g', '>']

/-- The closing tag `</thinking>`. -/
abbrev cTg : List Char := ['<', '/', 't', 'h', 'i', 'n', 'k', 'i', 'n', 'g', '>']

/-- One `re.sub(open .*? close, ' ', s, DOTALL | IGNORECASE)` pass (fueled).
At the leftmost occurrence of `op`, the lazy `.*?` runs to the nearest
subsequent occurrence of `cl`; the whole span is replaced by one space and
scanning resumes after it.  If no `cl` follows the leftmost `op` then no
later `op` has one either, so the string is returned unchanged. -/
def subPairF (op cl : List Char) : Nat → List Char → List Char
  | 0, s => s
  | f + 1, s =>
    match findCI op s with
    | none => s
    | some (b, r) =>
      match findCI cl r with
      | none => s
      | some (_, r2) => b ++ ' ' :: subPairF op cl f r2

/-- `re.sub` of `op .*? cl` with replacement a single space. -/
def subPair (op cl s : List Char) : List Char :=
  subPairF op cl (s.length + 1) s

/-- One `re.sub(p|q, ' ', s, IGNORECASE)` pass for two literal alternatives
(models the orphaned-tag passes `</?think>` and `</?thinking>`), fueled. -/
def subAltF (p q : List Char) : Nat → List Char → List Char
  | 0, s => s
  | _ + 1, [] => []
  | f + 1, c :: cs =>
    if ciMatch p (c :: cs) then ' ' :: subAltF p q f ((c :: cs).drop p.length)
    else if ciMatch q (c :: cs) then ' ' :: subAltF p q f ((c :: cs).drop q.length)
    else c :: subAltF p q f cs

/-- `re.sub` replacing each occurrence of `p` or `q` by a single space. -/
def subAlt (p q s : List Char) : List Char :=
  subAltF p q (s.length + 1) s

/-- `re.sub(r'[ \t]+', ' ', s)`: every run of spaces/tabs becomes one space.
The Boolean argument records whether the previous character was part of a
run already collapsed. -/
def collapseSpacesAux : Bool → List Char → List Char
  | _, [] => []
  | prev, c :: cs =>
    if isST c then
      if prev then collapseSpacesAux true cs
      else ' ' :: collapseSpacesAux true cs
    else c :: collapseSpacesAux false cs

/-- The horizontal-whitespace collapsing pass of `clean_reasoning_output`. -/
def collapseSpaces (s : List Char) : List Char :=
  collapseSpacesAux false s

/-- The whitespace-only tail of `r` after its last newline. -/
def afterLastNL (r : List Char) : List Char :=
  (r.reverse.takeWhile (fun c => !(c = '\n'))).reverse

/-- The pattern `\n\s*\n\s*\n+` matches at the start of `s` iff `s` starts
with a newline and the whitespace run from there holds at least three
newlines. -/
def nlGuard (s : List Char) : Bool :=
  match s with
  | [] => false
  | c :: _ => c = '\n' && 3 ≤ (s.takeWhile isWS).count '\n'

/-- `re.sub(r'\n\s*\n\s*\n+', '\n\n', s)` (fueled).  A match starts where
`nlGuard` holds and extends (greedily) through the last newline of the
whitespace run; it is replaced by exactly two newlines and scanning resumes
after the match. -/
def collapseNLsF : Nat → List Char → List Char
  | 0, s => s
  | _ + 1, [] => []
  | f + 1, c :: cs =>
    if nlGuard (c :: cs) then
      '\n' :: '\n' ::
        (afterLastNL ((c :: cs).takeWhile isWS) ++ collapseNLsF f ((c :: cs).dropWhile isWS))
    else c :: collapseNLsF f cs

/-- The blank-line collapsing pass of `clean_reasoning_output`. -/
def collapseNLs (s : List Char) : List Char :=
  collapseNLsF (s.length + 1) s

/-- Python `str.strip()` (ASCII whitespace set). -/
def pyStrip (s : List Char) : List Char :=
  ((s.dropWhile isWS).reverse.dropWhile isWS).reverse

/-- Python `s.split('\n')`: the list of newline-free segments, keeping empty
segments; the empty string splits to one empty segment. -/
def splitNL : List Char → List (List Char)
  | [] => [[]]
  | c :: cs =>
    if c = '\n' then [] :: splitNL cs
    else
      match splitNL cs with
      | [] => [[c]]
      | l :: ls => (c :: l) :: ls

/-- Python `'\n'.join(lines)`. -/
def joinNL : List (List Char) → List Char
  | [] => []
  | [l] => l
  | l :: ls => l ++ '\n' :: joinNL ls

/-- `line.startswith('#')`. -/
def hashStart (l : List Char) : Bool :=
  match l with
  | [] => false
  | c :: _ => c = '#'

/-- `line.startswith(('-', '*', '+'))`. -/
def bulletStart (l : List Char) : Bool :=
  match l with
  | [] => false
  | c :: _ => c = '-' || c = '*' || c = '+'

/-- `re.match(r'^\d+\.', line)`: one or more ASCII digits followed by a dot. -/
def numDotStart (l : List Char) : Bool :=
  match l with
  | [] => false
  | c :: cs =>
    c.isDigit &&
      (match (c :: cs).dropWhile Char.isDigit with
       | '.' :: _ => true
       | _ => false)

/-- `formatted_lines and formatted_lines[-1]` on the reversed accumulator:
the last rebuilt line exists and is non-blank. -/
def headNB : List (List Char) → Bool
  | [] => false
  | h :: _ => !h.isEmpty

/-- The last rebuilt line exists, is non-blank, and is not itself a bullet
or numbered list item. -/
def headNotList : List (List Char) → Bool
  | [] => false
  | h :: _ => !h.isEmpty && !(bulletStart h || numDotStart h)

/-- One iteration of the structural-reflow loop of `clean_reasoning_output`
for the line with index `i`; `acc` is the rebuilt output so far, most recent
line first. -/
def reflowStep (i : Nat) (acc : List (List Char)) (line : List Char) : List (List Char) :=
  let l := pyStrip line
  if l.isEmpty then [] :: acc
  else
    let acc1 := if hashStart l && !(i == 0) && headNB acc then [] :: acc else acc
    let acc2 :=
      if (bulletStart l || numDotStart l) && !(i == 0) && headNotList acc1 then [] :: acc1
      else acc1
    l :: acc2

/-- The structural-reflow loop over all lines. -/
def reflowGo : Nat → List (List Char) → List (List Char) → List (List Char)
  | _, acc, [] => acc
  | i, acc, l :: ls => reflowGo (i + 1) (reflowStep i acc l) ls

/-- The structural-reflow step: rebuild the line sequence, inserting blank
lines before headings and before list items per the source's two rules. -/
def reflowAll (lines : List (List Char)) : List (List Char) :=
  (reflowGo 0 [] lines).reverse

/-- The tag-removal passes of `clean_reasoning_output`, in source order:
`<think>..</think>`, `<thinking>..</thinking>`, `<think>..</thinking>`,
`<thinking>..</think>`, then the orphaned-tag passes `</?think>` and
`</?thinking>`. -/
def stripTags (s : List Char) : List Char :=
  subAlt oTg cTg (subAlt oT cT (subPair oTg cT (subPair oT cTg (subPair oTg cTg
    (subPair oT cT s)))))

/-- The whitespace/structure normalization tail of `clean_reasoning_output`:
collapse spaces and tabs, collapse blank-line runs, strip, split into
lines, reflow markdown structure, join, strip. -/
def normPipe (x : List Char) : List Char :=
  pyStrip (joinNL (reflowAll (splitNL (pyStrip (collapseNLs (collapseSpaces x))))))

/-- `clean_reasoning_output` from `src/backend/services/llm.py`: remove
reasoning tags (four paired passes, then two orphaned-tag passes), collapse
horizontal whitespace, collapse blank-line runs, strip, reflow markdown
structure, join and strip. -/
def clean_reasoning_output (s : List Char) : List Char :=
  if s.isEmpty then s else normPipe (stripTags s)

/-- The Python function applied to a possibly-absent argument: `None` is
falsy, so `if not text: return text` returns it untransformed. -/
def cleanOptInput : Option (List Char) → Option (List Char)
  | none => none
  | some s => some (clean_reasoning_output s)

/-- `tagFree s` holds when `s` contains no case-insensitive occurrence of
any of the four reasoning-scaffold tags. -/
def tagFree (s : List Char) : Bool :=
  !occB oT s && !occB cT s && !occB oTg s && !occB cTg s

/-- Leftmost position where either of the literal patterns `p`, `q` matches
case-insensitively; returns the text before the match and the text after
it.  Used only by the spec-worded comparator `cleanNearest`. -/
def findFirst2 (p q : List Char) : List Char → Option (List Char × List Char)
  | [] => none
  | c :: cs =>
    if ciMatch p (c :: cs) then some ([], (c :: cs).drop p.length)
    else if ciMatch q (c :: cs) then some ([], (c :: cs).drop q.length)
    else
      match findFirst2 p q cs with
      | some (b, a) => some (c :: b, a)
      | none => none

/-- Tag-pair removal as worded by the spec: each opening tag of either
spelling is paired with the nearest subsequent closing tag of either
spelling and the whole span is replaced by one space (fueled). -/
def subNearestF : Nat → List Char → List Char
  | 0, s => s
  | f + 1, s =>
    match findFirst2 oT oTg s with
    | none => s
    | some (b, r) =>
      match findFirst2 cT cTg r with
      | none => s
      | some (_, r2) => b ++ ' ' :: subNearestF f r2

/-- Wrapper supplying fuel for `subNearestF`. -/
def subNearest (s : List Char) : List Char :=
  subNearestF (s.length + 1) s

/-- The cleaning transform as worded by the spec's Step 1 (claim C1):
pairing is to the *nearest subsequent closing tag of either spelling*,
followed by orphaned-tag removal and the same whitespace/structure
pipeline as the source.  This definition follows the spec's words, to be
compared with `clean_reasoning_output`, which follows the code. -/
def cleanNearest (s : List Char) : List Char :=
  if s.isEmpty then s
  else normPipe (subAlt oTg cTg (subAlt oT cT (subNearest s)))

/-- A string is normalized (spacing and structure) when each normalization
pass of `clean_reasoning_output` leaves it unchanged: horizontal-whitespace
collapsing, blank-line collapsing, stripping, and structural reflow. -/
def IsNormalized (s : List Char) : Prop :=
  collapseSpaces s = s ∧ collapseNLs s = s ∧ pyStrip s = s ∧
    reflowAll (splitNL s) = splitNL s

/-! ### Quiz data model (`question_parser.py`, `quiz_storage.py`) -/

/-- Lookup in a Python dict modelled as an insertion-ordered association
list (`d.get(k)`). -/
def alistGet {α : Type} (k : String) : List (String × α) → Option α
  | [] => none
  | (k', v) :: rest => if k' = k then some v else alistGet k rest

/-- Update of a Python dict: replace the value in place if the key is
present, else append the new binding (`d[k] = v`). -/
def alistPut {α : Type} (k : String) (v : α) : List (String × α) → List (String × α)
  | [] => [(k, v)]
  | (k', v') :: rest => if k' = k then (k, v) :: rest else (k', v') :: alistPut k v rest

/-- Deletion from a Python dict (`del d[k]`), removing the binding for `k`. -/
def alistDel {α : Type} (k : String) : List (String × α) → List (String × α)
  | [] => []
  | (k', v') :: rest => if k' = k then rest else (k', v') :: alistDel k rest

/-- `Question` from `question_parser.py` (the fields; `_infer_topic` is not
needed by the claims, so `topic` is an ordinary field here). -/
structure Question where
  id : String
  original_text : String
  rewritten_text : Option String
  correct_answer : Option String
  explanation : Option String
  theme : Option String
  difficulty : String
  topic : String
deriving DecidableEq, Repr

/-- `QuizSession` from `question_parser.py`.  `questions` and
`user_answers` are Python dicts modelled as insertion-ordered association
lists; `feedback` entries are untouched by the claims and kept as opaque
strings. -/
structure QuizSession where
  quiz_id : String
  questions : List (String × Question)
  theme : String
  age : Nat
  user_answers : List (String × String)
  score : Option Nat
  feedback : List String
deriving DecidableEq, Repr

/-- `QuizSession.add_answer`. -/
def QuizSession.add_answer (s : QuizSession) (question_id answer : String) : QuizSession :=
  { s with user_answers := alistPut question_id answer s.user_answers }

/-- The per-answer condition of `calculate_score`: the answered question
exists in the session and has a truthy (non-`None`, non-empty) stored
correct answer, and `check_answer` (passed as `chk`; its floating-point
internals are abstracted as a Boolean-valued function) returns the given
polarity. -/
def answerCounted (chk : String → String → Bool) (questions : List (String × Question))
    (qa : String × String) (polarity : Bool) : Bool :=
  match alistGet qa.1 questions with
  | none => false
  | some q =>
    match q.correct_answer with
    | none => false
    | some ca => !ca.isEmpty && (chk qa.2 ca == polarity)

/-- The guard `if question and question.correct_answer` of
`calculate_score`/`get_wrong_questions`: the answered question exists and
has a truthy stored correct answer. -/
def answerValid (questions : List (String × Question)) (qa : String × String) : Bool :=
  match alistGet qa.1 questions with
  | none => false
  | some q =>
    match q.correct_answer with
    | none => false
    | some ca => !ca.isEmpty

/-- `QuizSession.calculate_score`: count the user answers whose question
exists, has a truthy correct answer, and passes `check_answer`; store the
count in `score` and return it. -/
def QuizSession.calculate_score (chk : String → String → Bool) (s : QuizSession) :
    Nat × QuizSession :=
  let correct := (s.user_answers.filter (fun qa => answerCounted chk s.questions qa true)).length
  (correct, { s with score := some correct })

/-- `QuizSession.get_wrong_questions`: ids of user answers whose question
exists, has a truthy correct answer, and fails `check_answer`. -/
def QuizSession.get_wrong_questions (chk : String → String → Bool) (s : QuizSession) :
    List String :=
  (s.user_answers.filter (fun qa => answerCounted chk s.questions qa false)).map Prod.fst

/-- The in-memory `QuizStorage` from `quiz_storage.py`. -/
structure QuizStorage where
  sessions : List (String × QuizSession)
deriving DecidableEq

/-- `QuizStorage.store_session`. -/
def QuizStorage.store_session (st : QuizStorage) (s : QuizSession) : QuizStorage :=
  ⟨alistPut s.quiz_id s st.sessions⟩

/-- `QuizStorage.get_session`. -/
def QuizStorage.get_session (st : QuizStorage) (quiz_id : String) : Option QuizSession :=
  alistGet quiz_id st.sessions

/-- `QuizStorage.delete_session` (`if quiz_id in self._sessions: del ...`). -/
def QuizStorage.delete_session (st : QuizStorage) (quiz_id : String) : QuizStorage :=
  ⟨alistDel quiz_id st.sessions⟩

/-- The empty storage created by `QuizStorage.__init__`. -/
def QuizStorage.empty : QuizStorage := ⟨[]⟩

/-- The head character is a space or tab. -/
def headST : List Char → Bool
  | [] => false
  | c :: _ => isST c

/-- The head character is whitespace. -/
def headWSB : List Char → Bool
  | [] => false
  | c :: _ => isWS c

/-- No two adjacent characters are both spaces/tabs. -/
def noAdjSTB : List Char → Bool
  | [] => true
  | [_] => true
  | c1 :: c2 :: rest => !(isST c1 && isST c2) && noAdjSTB (c2 :: rest)

/-- The blank-line collapsing pattern matches at no position of `x`:
no suffix of `x` starts a `\n\s*\n\s*\n+` match. -/
def noNLmatch (x : List Char) : Prop :=
  ∀ w, w <:+ x → nlGuard w = false

/-- The line is blank after stripping (Python falsy line). -/
def lineBlank (l : List Char) : Bool :=
  (pyStrip l).isEmpty

/-- No two adjacent lines are both blank. -/
def noAdjBlankL : List (List Char) → Bool
  | [] => true
  | [_] => true
  | a :: b :: rest => !(lineBlank a && lineBlank b) && noAdjBlankL (b :: rest)

/-- No two adjacent lines are both empty. -/
def noAdjEmptyL : List (List Char) → Bool
  | [] => true
  | [_] => true
  | a :: b :: rest => !(a.isEmpty && b.isEmpty) && noAdjEmptyL (b :: rest)

/-- The previous rebuilt line exists and is non-blank. -/
def prevNB : Option (List Char) → Bool
  | none => false
  | some h => !h.isEmpty

/-- The previous rebuilt line exists, is non-blank and is not a list item. -/
def prevNotList : Option (List Char) → Bool
  | none => false
  | some h => !h.isEmpty && !(bulletStart h || numDotStart h)

/-- A line is a fixed point of the reflow step in context `prev`: it is
already stripped, and neither insertion rule fires before it. -/
def lineOK (prev : Option (List Char)) (l : List Char) : Bool :=
  (pyStrip l == l) && !(hashStart l && prevNB prev)
    && !((bulletStart l || numDotStart l) && prevNotList prev)

/-- Forward scan: every line is a reflow fixed point given its predecessor. -/
def okL : Option (List Char) → List (List Char) → Bool
  | _, [] => true
  | prev, l :: ls => lineOK prev l && okL (some l) ls

/-- The same scan over a reversed (most-recent-first) accumulator. -/
def okRevL : List (List Char) → Bool
  | [] => true
  | l :: rest => lineOK rest.head? l && okRevL rest

/-- `SkipAll p x` states that a leftmost-occurrence search for `p` passes
over all of `x`: searching `x ++ y` just relocates the search in `y`. -/
def SkipAll (p x : List Char) : Prop :=
  ∀ y, findCI p (x ++ y) = (findCI p y).map (fun br => (x ++ br.1, br.2))

/-! ### Basic facts about the scanners -/

theorem ciMatch_length {p s : List Char} (h : ciMatch p s = true) : p.length ≤ s.length := by
  induction p generalizing s with
  | nil => simp
  | cons a ps ih =>
    cases s with
    | nil => simp [ciMatch] at h
    | cons c cs =>
      simp only [ciMatch, Bool.and_eq_true] at h
      have := ih h.2
      simp only [List.length_cons]
      omega

theorem ciMatch_nil_false {p : List Char} (hp : p ≠ []) : ciMatch p [] = false := by
  cases p with
  | nil => exact absurd rfl hp
  | cons a ps => rfl

theorem findCI_nil {p : List Char} (hp : p ≠ []) : findCI p [] = none := by
  simp [findCI, ciMatch_nil_false hp]

theorem findCI_shape {p : List Char} :
    ∀ {s b a : List Char}, findCI p s = some (b, a) →
      ∃ m, s = b ++ m ++ a ∧ ciMatch p (m ++ a) = true ∧ m.length = p.length := by
  intro s
  induction s with
  | nil =>
    intro b a h
    unfold findCI at h
    split at h
    · rename_i hm
      injection h with h'
      injection h' with hb ha
      subst hb; subst ha
      refine ⟨[], by simp, hm, ?_⟩
      cases p with
      | nil => rfl
      | cons x xs => simp [ciMatch] at hm
    · exact absurd h (by simp)
  | cons c cs ih =>
    intro b a h
    unfold findCI at h
    split at h
    · rename_i hm
      injection h with h'
      injection h' with hb ha
      subst hb; subst ha
      refine ⟨(c :: cs).take p.length, ?_, ?_, ?_⟩
      · simp [List.take_append_drop]
      · rw [List.take_append_drop]; exact hm
      · exact List.length_take_of_le (ciMatch_length hm)
    · rename_i hm
      revert h
      cases hrec : findCI p cs with
      | none => intro h; exact absurd h (by simp)
      | some ba =>
        obtain ⟨b', a'⟩ := ba
        intro h
        injection h with h'
        injection h' with hb ha
        subst hb; subst ha
        obtain ⟨m, hcs, hmm, hlen⟩ := ih hrec
        exact ⟨m, by simp [hcs], hmm, hlen⟩

theorem findCI_some_length {p : List Char} (hp : p ≠ []) {s b a : List Char}
    (h : findCI p s = some (b, a)) : a.length < s.length := by
  obtain ⟨m, rfl, _, hlen⟩ := findCI_shape h
  have : 1 ≤ p.length := by cases p with | nil => exact absurd rfl hp | cons x xs => simp
  simp [List.length_append]
  omega

theorem subPairF_fuel {op cl : List Char} (hop : op ≠ []) (hcl : cl ≠ []) :
    ∀ n, ∀ {s : List Char}, s.length ≤ n → ∀ {f g : Nat}, s.length < f → s.length < g →
      subPairF op cl f s = subPairF op cl g s := by
  intro n
  induction n with
  | zero =>
    intro s hs f g hf hg
    have hsnil : s = [] := List.length_eq_zero.mp (Nat.le_zero.mp hs)
    subst hsnil
    obtain ⟨f', rfl⟩ : ∃ f', f = f' + 1 := ⟨f - 1, by omega⟩
    obtain ⟨g', rfl⟩ : ∃ g', g = g' + 1 := ⟨g - 1, by omega⟩
    simp [subPairF, findCI_nil hop]
  | succ n ih =>
    intro s hs f g hf hg
    obtain ⟨f', rfl⟩ : ∃ f', f = f' + 1 := ⟨f - 1, by omega⟩
    obtain ⟨g', rfl⟩ : ∃ g', g = g' + 1 := ⟨g - 1, by omega⟩
    show subPairF op cl (f' + 1) s = subPairF op cl (g' + 1) s
    cases h1 : findCI op s with
    | none => simp only [subPairF, h1]
    | some br =>
      obtain ⟨b, r⟩ := br
      cases h2 : findCI cl r with
      | none => simp only [subPairF, h1, h2]
      | some xr =>
        obtain ⟨x, r2⟩ := xr
        have hr : r.length < s.length := findCI_some_length hop h1
        have hr2 : r2.length < r.length := findCI_some_length hcl h2
        have heq : subPairF op cl f' r2 = subPairF op cl g' r2 :=
          ih (by omega) (by omega) (by omega)
        simp only [subPairF, h1, h2, heq]

theorem subPair_none {op cl s : List Char} (h : findCI op s = none) :
    subPair op cl s = s := by
  unfold subPair
  simp [subPairF, h]

theorem subPair_noClose {op cl s b r : List Char} (h1 : findCI op s = some (b, r))
    (h2 : findCI cl r = none) : subPair op cl s = s := by
  unfold subPair
  simp [subPairF, h1, h2]

theorem subPair_step {op cl : List Char} (hop : op ≠ []) (hcl : cl ≠ [])
    {s b r x r2 : List Char} (h1 : findCI op s = some (b, r))
    (h2 : findCI cl r = some (x, r2)) :
    subPair op cl s = b ++ ' ' :: subPair op cl r2 := by
  have hr : r.length < s.length := findCI_some_length hop h1
  have hr2 : r2.length < r.length := findCI_some_length hcl h2
  unfold subPair
  simp only [subPairF, h1, h2]
  have : subPairF op cl s.length r2 = subPairF op cl (r2.length + 1) r2 :=
    subPairF_fuel hop hcl r2.length le_rfl (by omega) (by omega)
  rw [this]
  rfl

theorem subAltF_fuel {p q : List Char} (hp : p ≠ []) (hq : q ≠ []) :
    ∀ n, ∀ {s : List Char}, s.length ≤ n → ∀ {f g : Nat}, s.length < f → s.length < g →
      subAltF p q f s = subAltF p q g s := by
  intro n
  induction n with
  | zero =>
    intro s hs f g hf hg
    have hsnil : s = [] := List.length_eq_zero.mp (Nat.le_zero.mp hs)
    subst hsnil
    obtain ⟨f', rfl⟩ : ∃ f', f = f' + 1 := ⟨f - 1, by omega⟩
    obtain ⟨g', rfl⟩ : ∃ g', g = g' + 1 := ⟨g - 1, by omega⟩
    rfl
  | succ n ih =>
    intro s hs f g hf hg
    obtain ⟨f', rfl⟩ : ∃ f', f = f' + 1 := ⟨f - 1, by omega⟩
    obtain ⟨g', rfl⟩ : ∃ g', g = g' + 1 := ⟨g - 1, by omega⟩
    cases s with
    | nil => rfl
    | cons c cs =>
      have hp1 : 1 ≤ p.length := by
        cases p with | nil => exact absurd rfl hp | cons y ys => simp
      have hq1 : 1 ≤ q.length := by
        cases q with | nil => exact absurd rfl hq | cons y ys => simp
      have hs' : cs.length ≤ n := by simp only [List.length_cons] at hs; omega
      have hf' : cs.length < f' := by simp only [List.length_cons] at hf; omega
      have hg' : cs.length < g' := by simp only [List.length_cons] at hg; omega
      have hdp : ((c :: cs).drop p.length).length ≤ cs.length := by
        simp only [List.length_drop, List.length_cons]; omega
      have hdq : ((c :: cs).drop q.length).length ≤ cs.length := by
        simp only [List.length_drop, List.length_cons]; omega
      show subAltF p q (f' + 1) (c :: cs) = subAltF p q (g' + 1) (c :: cs)
      simp only [subAltF]
      split
      · have heq : subAltF p q f' ((c :: cs).drop p.length)
            = subAltF p q g' ((c :: cs).drop p.length) :=
          ih (by omega) (by omega) (by omega)
        simp [heq]
      · split
        · have heq : subAltF p q f' ((c :: cs).drop q.length)
              = subAltF p q g' ((c :: cs).drop q.length) :=
            ih (by omega) (by omega) (by omega)
          simp [heq]
        · have heq : subAltF p q f' cs = subAltF p q g' cs :=
            ih (by omega) (by omega) (by omega)
          simp [heq]

theorem subAlt_nil {p q : List Char} : subAlt p q [] = [] := rfl

theorem subAlt_m1 {p q : List Char} (hp : p ≠ []) (hq : q ≠ []) {c : Char} {cs : List Char}
    (h : ciMatch p (c :: cs) = true) :
    subAlt p q (c :: cs) = ' ' :: subAlt p q ((c :: cs).drop p.length) := by
  have hp1 : 1 ≤ p.length := by
    cases p with | nil => exact absurd rfl hp | cons y ys => simp
  unfold subAlt
  simp only [subAltF, h, if_true, List.length_cons, List.length_drop]
  have heq : subAltF p q (cs.length + 1) ((c :: cs).drop p.length)
      = subAltF p q (cs.length + 1 - p.length + 1) ((c :: cs).drop p.length) :=
    subAltF_fuel hp hq ((c :: cs).drop p.length).length le_rfl
      (by simp only [List.length_drop, List.length_cons]; omega)
      (by simp only [List.length_drop, List.length_cons]; omega)
  rw [heq]

theorem subAlt_m2 {p q : List Char} (hp : p ≠ []) (hq : q ≠ []) {c : Char} {cs : List Char}
    (h1 : ciMatch p (c :: cs) = false) (h2 : ciMatch q (c :: cs) = true) :
    subAlt p q (c :: cs) = ' ' :: subAlt p q ((c :: cs).drop q.length) := by
  have hq1 : 1 ≤ q.length := by
    cases q with | nil => exact absurd rfl hq | cons y ys => simp
  unfold subAlt
  simp only [subAltF, h1, h2, Bool.false_eq_true, if_false, if_true, List.length_cons,
    List.length_drop]
  have heq : subAltF p q (cs.length + 1) ((c :: cs).drop q.length)
      = subAltF p q (cs.length + 1 - q.length + 1) ((c :: cs).drop q.length) :=
    subAltF_fuel hp hq ((c :: cs).drop q.length).length le_rfl
      (by simp only [List.length_drop, List.length_cons]; omega)
      (by simp only [List.length_drop, List.length_cons]; omega)
  rw [heq]

theorem subAlt_keep {p q : List Char} (hp : p ≠ []) (hq : q ≠ []) {c : Char} {cs : List Char}
    (h1 : ciMatch p (c :: cs) = false) (h2 : ciMatch q (c :: cs) = false) :
    subAlt p q (c :: cs) = c :: subAlt p q cs := by
  unfold subAlt
  simp only [subAltF, h1, h2, Bool.false_eq_true, if_false]
  have : subAltF p q (c :: cs).length cs = subAltF p q (cs.length + 1) cs :=
    subAltF_fuel hp hq cs.length le_rfl (by simp) (by omega)
  simp [this]

theorem collapseNLsF_fuel :
    ∀ n, ∀ {s : List Char}, s.length ≤ n → ∀ {f g : Nat}, s.length < f → s.length < g →
      collapseNLsF f s = collapseNLsF g s := by
  intro n
  induction n with
  | zero =>
    intro s hs f g hf hg
    have hsnil : s = [] := List.length_eq_zero.mp (Nat.le_zero.mp hs)
    subst hsnil
    obtain ⟨f', rfl⟩ : ∃ f', f = f' + 1 := ⟨f - 1, by omega⟩
    obtain ⟨g', rfl⟩ : ∃ g', g = g' + 1 := ⟨g - 1, by omega⟩
    rfl
  | succ n ih =>
    intro s hs f g hf hg
    obtain ⟨f', rfl⟩ : ∃ f', f = f' + 1 := ⟨f - 1, by omega⟩
    obtain ⟨g', rfl⟩ : ∃ g', g = g' + 1 := ⟨g - 1, by omega⟩
    cases s with
    | nil => rfl
    | cons c cs =>
      show collapseNLsF (f' + 1) (c :: cs) = collapseNLsF (g' + 1) (c :: cs)
      simp only [collapseNLsF]
      split
      · rename_i hg'
        have hc : isWS c = true := by
          unfold nlGuard at hg'
          simp only [Bool.and_eq_true, decide_eq_true_eq] at hg'
          simp [isWS, hg'.1]
        have hdw : (c :: cs).dropWhile isWS = cs.dropWhile isWS := by
          simp [List.dropWhile_cons, hc]
        have hlen : ((c :: cs).dropWhile isWS).length ≤ cs.length := by
          rw [hdw]; exact (List.dropWhile_suffix isWS).length_le
        have : collapseNLsF f' ((c :: cs).dropWhile isWS)
            = collapseNLsF g' ((c :: cs).dropWhile isWS) := by
          refine ih ?_ ?_ ?_ <;> simp only [List.length_cons] at hs hf hg <;> omega
        simp [this]
      · have : collapseNLsF f' cs = collapseNLsF g' cs := by
          refine ih ?_ ?_ ?_ <;> simp only [List.length_cons] at hs hf hg <;> omega
        simp [this]

theorem collapseNLs_nil : collapseNLs [] = [] := rfl

theorem collapseNLs_match {c : Char} {cs : List Char} (h : nlGuard (c :: cs) = true) :
    collapseNLs (c :: cs) =
      '\n' :: '\n' ::
        (afterLastNL ((c :: cs).takeWhile isWS) ++ collapseNLs ((c :: cs).dropWhile isWS)) := by
  have hc : isWS c = true := by
    unfold nlGuard at h
    simp only [Bool.and_eq_true, decide_eq_true_eq] at h
    simp [isWS, h.1]
  have hdw : (c :: cs).dropWhile isWS = cs.dropWhile isWS := by
    simp [List.dropWhile_cons, hc]
  have hlen : ((c :: cs).dropWhile isWS).length ≤ cs.length := by
    rw [hdw]; exact (List.dropWhile_suffix isWS).length_le
  unfold collapseNLs
  simp only [collapseNLsF, h, if_true, List.length_cons]
  have heq : collapseNLsF (cs.length + 1) ((c :: cs).dropWhile isWS)
      = collapseNLsF (((c :: cs).dropWhile isWS).length + 1) ((c :: cs).dropWhile isWS) :=
    collapseNLsF_fuel ((c :: cs).dropWhile isWS).length le_rfl (by omega) (by omega)
  simp [heq]

theorem collapseNLs_keep {c : Char} {cs : List Char} (h : nlGuard (c :: cs) = false) :
    collapseNLs (c :: cs) = c :: collapseNLs cs := by
  unfold collapseNLs
  simp only [collapseNLsF, h, Bool.false_eq_true, if_false]
  have : collapseNLsF (c :: cs).length cs = collapseNLsF (cs.length + 1) cs :=
    collapseNLsF_fuel cs.length le_rfl (by simp) (by omega)
  simp [this]

/-! ### Association-list facts for the quiz storage -/

theorem alistGet_put_same {α : Type} (k : String) (v : α) :
    ∀ m : List (String × α), alistGet k (alistPut k v m) = some v := by
  intro m
  induction m with
  | nil => simp [alistPut, alistGet]
  | cons kv rest ih =>
    obtain ⟨k', v'⟩ := kv
    by_cases h : k' = k
    · subst h
      simp [alistPut, alistGet]
    · simp [alistPut, alistGet, h, ih]

theorem alistGet_put_other {α : Type} {k k' : String} (v : α) (h : k' ≠ k) :
    ∀ m : List (String × α), alistGet k' (alistPut k v m) = alistGet k' m := by
  intro m
  have h' : k ≠ k' := Ne.symm h
  induction m with
  | nil => simp [alistPut, alistGet, h']
  | cons kv rest ih =>
    obtain ⟨k1, v1⟩ := kv
    by_cases h1 : k1 = k
    · subst h1
      simp [alistPut, alistGet, h']
    · simp only [alistPut, h1, if_false]
      by_cases h2 : k1 = k'
      · subst h2
        simp [alistGet]
      · simp [alistGet, h2, ih]

theorem alistGet_none_of_not_mem {α : Type} {k : String} :
    ∀ {m : List (String × α)}, k ∉ m.map Prod.fst → alistGet k m = none := by
  intro m
  induction m with
  | nil => intro _; rfl
  | cons kv rest ih =>
    obtain ⟨k1, v1⟩ := kv
    intro h
    simp only [List.map_cons, List.mem_cons] at h
    push_neg at h
    have h1 : k1 ≠ k := fun hh => h.1 hh.symm
    simp [alistGet, h1, ih h.2]

theorem alistGet_del_same {α : Type} (k : String) :
    ∀ {m : List (String × α)}, (m.map Prod.fst).Nodup →
      alistGet k (alistDel k m) = none := by
  intro m
  induction m with
  | nil => intro _; rfl
  | cons kv rest ih =>
    obtain ⟨k1, v1⟩ := kv
    intro hnd
    simp only [List.map_cons, List.nodup_cons] at hnd
    by_cases h : k1 = k
    · subst h
      simp only [alistDel, if_true]
      exact alistGet_none_of_not_mem hnd.1
    · simp [alistDel, alistGet, h, ih hnd.2]

/-- C9: storage laws of `QuizStorage`.  After `store_session s`,
`get_session s.quiz_id` returns exactly `s`; storing a second session with
the same `quiz_id` replaces the first; sessions under other ids are
unchanged; `get_session` of an id never stored returns `none`, and after
`delete_session` (on a storage with distinct keys, as Python dicts have)
the id resolves to `none` — none of these operations can raise. -/
theorem C9_storage_laws :
    (∀ (st : QuizStorage) (s : QuizSession),
        (st.store_session s).get_session s.quiz_id = some s)
    ∧ (∀ (st : QuizStorage) (s1 s2 : QuizSession), s1.quiz_id = s2.quiz_id →
        ((st.store_session s1).store_session s2).get_session s1.quiz_id = some s2)
    ∧ (∀ (st : QuizStorage) (s : QuizSession) (k : String), k ≠ s.quiz_id →
        (st.store_session s).get_session k = st.get_session k)
    ∧ (∀ k : String, QuizStorage.empty.get_session k = none)
    ∧ (∀ (st : QuizStorage) (k : String), (st.sessions.map Prod.fst).Nodup →
        (st.delete_session k).get_session k = none) := by
  refine ⟨?_, ?_, ?_, ?_, ?_⟩
  · intro st s
    exact alistGet_put_same s.quiz_id s st.sessions
  · intro st s1 s2 h
    show alistGet s1.quiz_id (alistPut s2.quiz_id s2 _) = some s2
    rw [h]
    exact alistGet_put_same s2.quiz_id s2 _
  · intro st s k h
    exact alistGet_put_other s h st.sessions
  · intro k
    rfl
  · intro st k h
    exact alistGet_del_same k h

/-- Witness for C9 at concrete sessions and storages. -/
theorem C9_storage_laws_witness :
    (QuizStorage.empty.store_session ⟨"q1", [], "space", 8, [], none, []⟩).get_session "q1"
        = some ⟨"q1", [], "space", 8, [], none, []⟩
    ∧ ((QuizStorage.empty.store_session ⟨"q1", [], "space", 8, [], none, []⟩).store_session
          ⟨"q1", [], "ocean", 9, [], none, []⟩).get_session "q1"
        = some ⟨"q1", [], "ocean", 9, [], none, []⟩
    ∧ (QuizStorage.empty.store_session ⟨"q1", [], "space", 8, [], none, []⟩).get_session "q2"
        = QuizStorage.empty.get_session "q2"
    ∧ ((QuizStorage.mk [("q1", ⟨"q1", [], "space", 8, [], none, []⟩)]).delete_session
          "q1").get_session "q1" = none := by
  refine ⟨?_, ?_, ?_, ?_⟩
  · exact C9_storage_laws.1 QuizStorage.empty ⟨"q1", [], "space", 8, [], none, []⟩
  · exact C9_storage_laws.2.1 QuizStorage.empty ⟨"q1", [], "space", 8, [], none, []⟩
      ⟨"q1", [], "ocean", 9, [], none, []⟩ rfl
  · exact C9_storage_laws.2.2.1 QuizStorage.empty ⟨"q1", [], "space", 8, [], none, []⟩ "q2"
      (by decide)
  · exact C9_storage_laws.2.2.2.2 (QuizStorage.mk [("q1", ⟨"q1", [], "space", 8, [], none, []⟩)])
      "q1" (by simp)

/-! ### C10: score counting -/

theorem counted_partition (chk : String → String → Bool) (qs : List (String × Question)) :
    ∀ l : List (String × String),
      (l.filter (fun qa => answerCounted chk qs qa true)).length
        + (l.filter (fun qa => answerCounted chk qs qa false)).length
        = (l.filter (fun qa => answerValid qs qa)).length := by
  intro l
  induction l with
  | nil => rfl
  | cons qa rest ih =>
    simp only [List.filter_cons]
    have hsplit :
        (answerCounted chk qs qa true = true ∧ answerCounted chk qs qa false = false
            ∧ answerValid qs qa = true)
        ∨ (answerCounted chk qs qa true = false ∧ answerCounted chk qs qa false = true
            ∧ answerValid qs qa = true)
        ∨ (answerCounted chk qs qa true = false ∧ answerCounted chk qs qa false = false
            ∧ answerValid qs qa = false) := by
      unfold answerCounted answerValid
      cases hg : alistGet qa.1 qs with
      | none => right; right; simp
      | some q =>
        cases hca : q.correct_answer with
        | none => right; right; simp [hca]
        | some ca =>
          by_cases he : ca.isEmpty
          · right; right; simp [hca, he]
          · by_cases hchk : chk qa.2 ca
            · left; simp [hca, he, hchk]
            · right; left; simp [hca, he, hchk]
    rcases hsplit with ⟨h1, h2, h3⟩ | ⟨h1, h2, h3⟩ | ⟨h1, h2, h3⟩ <;>
      simp [h1, h2, h3, List.length_cons] <;> omega

/-- C10: for every check function (the imported `check_answer`, whose
floating-point internals are abstracted as a Boolean-valued function) and
every session, `calculate_score` returns the number of submitted answers
whose question exists with a truthy stored correct answer and which pass
the check; it stores exactly that number into `score`; and that count plus
the number of wrong questions from `get_wrong_questions` equals the number
of submitted answers whose question exists and has a truthy correct answer
(answers to unknown questions or ones without a stored answer count toward
neither). -/
theorem C10_score_partition (chk : String → String → Bool) (s : QuizSession) :
    (s.calculate_score chk).1
        = (s.user_answers.filter (fun qa => answerCounted chk s.questions qa true)).length
    ∧ (s.calculate_score chk).2.score = some (s.calculate_score chk).1
    ∧ (s.calculate_score chk).1 + (s.get_wrong_questions chk).length
        = (s.user_answers.filter (fun qa => answerValid s.questions qa)).length := by
  refine ⟨rfl, rfl, ?_⟩
  show (s.user_answers.filter (fun qa => answerCounted chk s.questions qa true)).length
      + ((s.user_answers.filter (fun qa => answerCounted chk s.questions qa false)).map
          Prod.fst).length
      = (s.user_answers.filter (fun qa => answerValid s.questions qa)).length
  rw [List.length_map]
  exact counted_partition chk s.questions s.user_answers

/-! ### C5: totality and empty/null behaviour -/

/-- C5: the cleaning transform is total on strings — in this model it is a
plain function, defined with no side effects on every input — it returns
the empty string unchanged, and on an absent (`None`) input the Python
guard returns the input as-is without transformation, while every present
input is cleaned. -/
theorem C5_total_empty_null :
    clean_reasoning_output [] = []
    ∧ cleanOptInput none = none
    ∧ ∀ s : List Char, cleanOptInput (some s) = some (clean_reasoning_output s) := by
  exact ⟨rfl, rfl, fun s => rfl⟩

/-! ### C6: structural reflow rules -/

theorem hash_not_list {l : List Char} (h : hashStart l = true) :
    bulletStart l = false ∧ numDotStart l = false := by
  cases l with
  | nil => simp [hashStart] at h
  | cons c t =>
    simp only [hashStart, decide_eq_true_eq] at h
    subst h
    exact ⟨rfl, rfl⟩

theorem list_line_shape {l : List Char} (h : (bulletStart l || numDotStart l) = true) :
    hashStart l = false ∧ l.isEmpty = false := by
  constructor
  · by_contra hc
    have hh : hashStart l = true := by
      cases hhs : hashStart l with
      | false => exact absurd hhs hc
      | true => rfl
    obtain ⟨hb, hn⟩ := hash_not_list hh
    rw [hb, hn] at h
    simp at h
  · cases l with
    | nil => simp [bulletStart, numDotStart] at h
    | cons c t => rfl

/-- C6: the structural-reflow rules of `clean_reasoning_output`.
A blank line is inserted before a line starting with `#` when the line is
not the first and the previous rebuilt line is non-blank; a blank line is
inserted before a bullet (`-`, `*`, `+`) or numbered (`digits.`) line when
the line is not the first and the previous rebuilt line is non-blank and
not itself a list item; consecutive list items stay adjacent; a prose line
(no heading or list marker) never receives an inserted blank, so no blank
line is ever inserted after a heading before following prose.  Concretely,
`"- A\n- B"` stays adjacent and `"Final answer\n1. Step one"` gets one
blank line inserted. -/
theorem C6_reflow_rules :
    (∀ (i : Nat) (acc : List (List Char)) (line : List Char),
        hashStart (pyStrip line) = true → i ≠ 0 → headNB acc = true →
        reflowStep i acc line = pyStrip line :: [] :: acc)
    ∧ (∀ (i : Nat) (acc : List (List Char)) (line : List Char),
        (bulletStart (pyStrip line) || numDotStart (pyStrip line)) = true → i ≠ 0 →
        headNotList acc = true →
        reflowStep i acc line = pyStrip line :: [] :: acc)
    ∧ (∀ (i : Nat) (h : List Char) (t : List (List Char)) (line : List Char),
        (bulletStart (pyStrip line) || numDotStart (pyStrip line)) = true →
        (bulletStart h || numDotStart h) = true →
        reflowStep i (h :: t) line = pyStrip line :: h :: t)
    ∧ (∀ (i : Nat) (acc : List (List Char)) (line : List Char),
        pyStrip line ≠ [] → hashStart (pyStrip line) = false →
        bulletStart (pyStrip line) = false → numDotStart (pyStrip line) = false →
        reflowStep i acc line = pyStrip line :: acc)
    ∧ clean_reasoning_output "- A\n- B".data = "- A\n- B".data
    ∧ clean_reasoning_output "Final answer\n1. Step one".data
        = "Final answer\n\n1. Step one".data := by
  refine ⟨?_, ?_, ?_, ?_, by decide, by decide⟩
  · intro i acc line h1 h2 h3
    obtain ⟨hb, hn⟩ := hash_not_list h1
    have hne : (pyStrip line).isEmpty = false := by
      cases hl : pyStrip line with
      | nil => rw [hl] at h1; simp [hashStart] at h1
      | cons c t => rfl
    have hi : (i == 0) = false := by simpa using h2
    unfold reflowStep
    simp [hne, h1, h3, hb, hn, hi]
  · intro i acc line h1 h2 h3
    obtain ⟨hh, hne⟩ := list_line_shape h1
    have hi : (i == 0) = false := by simpa using h2
    unfold reflowStep
    simp [hne, h1, hh, hi, h3]
  · intro i h t line h1 h2
    obtain ⟨hh, hne⟩ := list_line_shape h1
    have hnl : headNotList (h :: t) = false := by simp [headNotList, h2]
    unfold reflowStep
    simp [hne, h1, hh, hnl]
  · intro i acc line h0 h1 h2 h3
    have hne : (pyStrip line).isEmpty = false := by
      cases hl : pyStrip line with
      | nil => exact absurd hl h0
      | cons c t => rfl
    unfold reflowStep
    simp [hne, h1, h2, h3]

/-- Witness for C6: the heading rule fires on a concrete line, and two
concrete consecutive bullet items stay adjacent. -/
theorem C6_reflow_rules_witness :
    reflowStep 1 [['a']] "# h".data = "# h".data :: [] :: [['a']]
    ∧ reflowStep 1 ["- a".data] "- b".data = "- b".data :: ["- a".data] := by
  constructor
  · exact C6_reflow_rules.1 1 [['a']] "# h".data (by decide) (by decide) (by decide)
  · exact C6_reflow_rules.2.2.1 1 "- a".data [] "- b".data (by decide) (by decide)

/-! ### Character and occurrence toolkit for the tag passes -/

theorem toNat_ofNat_valid (n : Nat) (h1 : 97 ≤ n) (h2 : n ≤ 122) :
    (Char.ofNat n).toNat = n := by
  have hv : n.isValidChar := by
    left
    omega
  simp [Char.ofNat, hv, Char.toNat, Char.ofNatAux, UInt32.toNat, UInt32.ofNat',
    BitVec.toNat_ofNatLt]

theorem toLower_lt_eq : ∀ c : Char, c.toLower = '<' → c = '<' := by
  intro c h
  simp only [Char.toLower] at h
  by_cases hr : c.toNat ≥ 65 ∧ c.toNat ≤ 90
  · rw [if_pos hr] at h
    have h2 := congrArg Char.toNat h
    rw [toNat_ofNat_valid (c.toNat + 32) (by omega) (by omega)] at h2
    have h60 : ('<').toNat = 60 := by decide
    omega
  · rw [if_neg hr] at h
    exact h

theorem ciMatch_head_lt (p' : List Char) {c : Char} (hc : c ≠ '<') (z : List Char) :
    ciMatch ('<' :: p') (c :: z) = false := by
  by_cases h : c.toLower = '<'
  · exact absurd (toLower_lt_eq c h) hc
  · simp [ciMatch, h]

theorem ciMatch_self {p : List Char} (hp : ∀ c ∈ p, c.toLower = c) (t : List Char) :
    ciMatch p (p ++ t) = true := by
  induction p with
  | nil => rfl
  | cons a ps ih =>
    have ha : a.toLower = a := hp a (List.mem_cons_self a ps)
    have hps : ∀ c ∈ ps, c.toLower = c := fun c hcm => hp c (List.mem_cons_of_mem a hcm)
    simp [ciMatch, ha, ih hps]

theorem findCI_at_self {p : List Char} (hp : ∀ c ∈ p, c.toLower = c) (hpne : p ≠ [])
    (t : List Char) : findCI p (p ++ t) = some ([], t) := by
  cases p with
  | nil => exact absurd rfl hpne
  | cons c ps =>
    have hm : ciMatch (c :: ps) ((c :: ps) ++ t) = true := ciMatch_self hp t
    simp only [List.cons_append] at hm
    show findCI (c :: ps) (c :: (ps ++ t)) = some ([], t)
    simp only [findCI, hm, if_true, List.length_cons, List.drop_succ_cons,
      List.drop_left]

theorem SkipAll_nil {p : List Char} : SkipAll p [] := by
  intro y
  cases h : findCI p y with
  | none => simp [h]
  | some br => simp [h]

theorem SkipAll_cons {p x : List Char} {c : Char}
    (hc : ∀ y, ciMatch p (c :: (x ++ y)) = false) (hx : SkipAll p x) :
    SkipAll p (c :: x) := by
  intro y
  show findCI p (c :: (x ++ y)) = _
  cases p with
  | nil =>
    have := hc y
    simp [ciMatch] at this
  | cons a ps =>
    simp only [findCI, hc y, Bool.false_eq_true, if_false]
    rw [hx y]
    cases h : findCI (a :: ps) y with
    | none => simp [h]
    | some br =>
      obtain ⟨b, r⟩ := br
      simp [h]

theorem SkipAll_append {p x1 x2 : List Char} (h1 : SkipAll p x1) (h2 : SkipAll p x2) :
    SkipAll p (x1 ++ x2) := by
  intro y
  rw [List.append_assoc, h1 (x2 ++ y), h2 y]
  cases h : findCI p y with
  | none => simp
  | some br =>
    obtain ⟨b, r⟩ := br
    simp

theorem SkipAll_ltFree {p' x : List Char} (hx : '<' ∉ x) : SkipAll ('<' :: p') x := by
  induction x with
  | nil => exact SkipAll_nil
  | cons c cs ih =>
    have hc : c ≠ '<' := by
      intro hh
      exact hx (hh ▸ List.mem_cons_self c cs)
    have hcs : '<' ∉ cs := fun hh => hx (List.mem_cons_of_mem c hh)
    exact SkipAll_cons (fun y => ciMatch_head_lt p' hc (cs ++ y)) (ih hcs)

theorem findCI_ltFree {p' x : List Char} (hx : '<' ∉ x) : findCI ('<' :: p') x = none := by
  have hsk : SkipAll ('<' :: p') x := SkipAll_ltFree hx
  have h0 := hsk []
  rw [List.append_nil, findCI_nil (by simp)] at h0
  simpa using h0

theorem findCI_skip_some {p x y b r : List Char} (hx : SkipAll p x)
    (hy : findCI p y = some (b, r)) : findCI p (x ++ y) = some (x ++ b, r) := by
  have h0 := hx y
  rw [hy] at h0
  simpa using h0

theorem findCI_skip_none {p x y : List Char} (hx : SkipAll p x)
    (hy : findCI p y = none) : findCI p (x ++ y) = none := by
  have h0 := hx y
  rw [hy] at h0
  simpa using h0

theorem SkipAll_cT_cTg : SkipAll cT cTg := by
  intro y
  cases h : findCI cT y with
  | none => simp +decide [ciMatch, findCI, h]
  | some br =>
    obtain ⟨b, r⟩ := br
    simp +decide [ciMatch, findCI, h]

theorem SkipAll_oTg_oT : SkipAll oTg oT := by
  intro y
  cases h : findCI oTg y with
  | none => simp +decide [ciMatch, findCI, h]
  | some br =>
    obtain ⟨b, r⟩ := br
    simp +decide [ciMatch, findCI, h]

theorem SkipAll_oTg_cTg : SkipAll oTg cTg := by
  intro y
  cases h : findCI oTg y with
  | none => simp +decide [ciMatch, findCI, h]
  | some br =>
    obtain ⟨b, r⟩ := br
    simp +decide [ciMatch, findCI, h]

theorem subPair_ltFree {p' q x : List Char} (hx : '<' ∉ x) : subPair ('<' :: p') q x = x :=
  subPair_none (findCI_ltFree hx)

theorem subAlt_ltFree {p' q' x : List Char} (hx : '<' ∉ x) :
    subAlt ('<' :: p') ('<' :: q') x = x := by
  induction x with
  | nil => exact subAlt_nil
  | cons c cs ih =>
    have hc : c ≠ '<' := by
      intro hh
      exact hx (hh ▸ List.mem_cons_self c cs)
    have hcs : '<' ∉ cs := fun hh => hx (List.mem_cons_of_mem c hh)
    rw [subAlt_keep (by simp) (by simp) (ciMatch_head_lt p' hc cs)
      (ciMatch_head_lt q' hc cs), ih hcs]

theorem stripTags_ltFree {x : List Char} (hx : '<' ∉ x) : stripTags x = x := by
  unfold stripTags
  rw [subPair_ltFree hx, subPair_ltFree hx, subPair_ltFree hx, subPair_ltFree hx,
    subAlt_ltFree hx, subAlt_ltFree hx]

theorem clean_eq_pipe {s : List Char} (h : s ≠ []) :
    clean_reasoning_output s = normPipe (stripTags s) := by
  have hne : s.isEmpty = false := by
    cases s with
    | nil => exact absurd rfl h
    | cons c cs => rfl
  simp [clean_reasoning_output, hne]

/-! ### C1: tag-pair matching order -/

/-- C1 counterexample: on `"X<think>A</thinking>B</think>C"` the code pairs
the opening `<think>` with the *later same-spelling* `</think>`, jumping
over the nearer `</thinking>`, and deletes `B`; the spec's
nearest-closing-tag-of-either-spelling rule (modelled by `cleanNearest`)
would keep `B`.  So the two transforms differ at this input. -/
theorem C1_nearest_counterexample :
    clean_reasoning_output "X<think>A</thinking>B</think>C".data = "X C".data
    ∧ cleanNearest "X<think>A</thinking>B</think>C".data = "X B C".data
    ∧ clean_reasoning_output "X<think>A</thinking>B</think>C".data
        ≠ cleanNearest "X<think>A</thinking>B</think>C".data := by
  refine ⟨by decide, by decide, by decide⟩

/-- C1 (amended): the four paired passes run in source order, each pairing
an opening tag to the nearest subsequent closing tag of that pass's
spelling.  Hence (first part) an opening `<think>` followed by a
`</thinking>` and later a `</think>` is paired with the same-spelling
`</think>`, swallowing everything between (including the `</thinking>` and
the text around it); only when no same-spelling closing tag follows
(second part) does the mismatched-spelling pass pair `<think>` with the
nearest `</thinking>`.  In both cases the whole span is replaced by one
space.  The segments `a`, `b`, `c`, `d` are tag-free (no `<`). -/
theorem C1_pairing_amended :
    (∀ a b c d : List Char, '<' ∉ a → '<' ∉ b → '<' ∉ c → '<' ∉ d →
        clean_reasoning_output (a ++ oT ++ b ++ cTg ++ c ++ cT ++ d)
          = clean_reasoning_output (a ++ ' ' :: d))
    ∧ (∀ a b c : List Char, '<' ∉ a → '<' ∉ b → '<' ∉ c →
        clean_reasoning_output (a ++ oT ++ b ++ cTg ++ c)
          = clean_reasoning_output (a ++ ' ' :: c)) := by
  constructor
  · intro a b c d ha hb hc hd
    have hres : '<' ∉ (a ++ ' ' :: d) := by
      intro hmem
      rcases List.mem_append.mp hmem with h | h
      · exact ha h
      · rcases List.mem_cons.mp h with h | h
        · exact absurd h (by decide)
        · exact hd h
    have hne1 : (a ++ oT ++ b ++ cTg ++ c ++ cT ++ d) ≠ [] := by simp
    have hne2 : (a ++ ' ' :: d) ≠ [] := by simp
    rw [clean_eq_pipe hne1, clean_eq_pipe hne2, stripTags_ltFree hres]
    have e1 : subPair oT cT (a ++ oT ++ b ++ cTg ++ c ++ cT ++ d) = a ++ ' ' :: d := by
      have hoT : oT ≠ [] := by decide
      have hcT : cT ≠ [] := by decide
      have hs1 : findCI oT (oT ++ (b ++ (cTg ++ (c ++ (cT ++ d)))))
          = some ([], b ++ (cTg ++ (c ++ (cT ++ d)))) :=
        findCI_at_self (by decide) hoT (b ++ (cTg ++ (c ++ (cT ++ d))))
      have f1 : findCI oT (a ++ (oT ++ (b ++ (cTg ++ (c ++ (cT ++ d))))))
          = some (a, b ++ (cTg ++ (c ++ (cT ++ d)))) := by
        have h0 := findCI_skip_some (SkipAll_ltFree ha) hs1
        simpa using h0
      have hs2 : findCI cT (cT ++ d) = some ([], d) := findCI_at_self (by decide) hcT d
      have f2 : findCI cT (b ++ (cTg ++ (c ++ (cT ++ d))))
          = some (b ++ (cTg ++ c), d) := by
        have h0 := findCI_skip_some
          (SkipAll_append (SkipAll_ltFree hb) (SkipAll_append SkipAll_cT_cTg
            (SkipAll_ltFree hc))) hs2
        simpa [List.append_assoc] using h0
      have estep := subPair_step hoT hcT f1 f2
      rw [subPair_none (findCI_ltFree hd)] at estep
      simpa [List.append_assoc] using estep
    show normPipe (stripTags (a ++ oT ++ b ++ cTg ++ c ++ cT ++ d)) = _
    unfold stripTags
    rw [e1, subPair_ltFree hres, subPair_ltFree hres, subPair_ltFree hres,
      subAlt_ltFree hres, subAlt_ltFree hres]
  · intro a b c ha hb hc
    have hres : '<' ∉ (a ++ ' ' :: c) := by
      intro hmem
      rcases List.mem_append.mp hmem with h | h
      · exact ha h
      · rcases List.mem_cons.mp h with h | h
        · exact absurd h (by decide)
        · exact hc h
    have hne1 : (a ++ oT ++ b ++ cTg ++ c) ≠ [] := by simp
    have hne2 : (a ++ ' ' :: c) ≠ [] := by simp
    rw [clean_eq_pipe hne1, clean_eq_pipe hne2, stripTags_ltFree hres]
    have hs1 : findCI oT (oT ++ (b ++ (cTg ++ c))) = some ([], b ++ (cTg ++ c)) :=
      findCI_at_self (by decide) (by decide) (b ++ (cTg ++ c))
    have f1 : findCI oT (a ++ (oT ++ (b ++ (cTg ++ c))))
        = some (a, b ++ (cTg ++ c)) := by
      have h0 := findCI_skip_some (SkipAll_ltFree ha) hs1
      simpa using h0
    have e1 : subPair oT cT (a ++ oT ++ b ++ cTg ++ c) = a ++ oT ++ b ++ cTg ++ c := by
      have f2 : findCI cT (b ++ (cTg ++ c)) = none := by
        have h0 := findCI_skip_none (SkipAll_append (SkipAll_ltFree hb) SkipAll_cT_cTg)
          (findCI_ltFree hc)
        simpa [List.append_assoc] using h0
      have h0 : findCI oT (a ++ oT ++ b ++ cTg ++ c) = some (a, b ++ (cTg ++ c)) := by
        simpa [List.append_assoc] using f1
      exact subPair_noClose h0 f2
    have e2 : subPair oTg cTg (a ++ oT ++ b ++ cTg ++ c) = a ++ oT ++ b ++ cTg ++ c := by
      apply subPair_none
      have h0 : findCI oTg (a ++ (oT ++ (b ++ (cTg ++ c)))) = none := by
        apply findCI_skip_none (SkipAll_ltFree ha)
        apply findCI_skip_none SkipAll_oTg_oT
        apply findCI_skip_none (SkipAll_ltFree hb)
        apply findCI_skip_none SkipAll_oTg_cTg
        exact findCI_ltFree hc
      simpa [List.append_assoc] using h0
    have e3 : subPair oT cTg (a ++ oT ++ b ++ cTg ++ c) = a ++ ' ' :: c := by
      have hs3 : findCI cTg (cTg ++ c) = some ([], c) :=
        findCI_at_self (by decide) (by decide) c
      have f3 : findCI cTg (b ++ (cTg ++ c)) = some (b, c) := by
        have h0 := findCI_skip_some (SkipAll_ltFree hb) hs3
        simpa using h0
      have h0 : findCI oT (a ++ oT ++ b ++ cTg ++ c) = some (a, b ++ (cTg ++ c)) := by
        simpa [List.append_assoc] using f1
      have estep := subPair_step (by decide : oT ≠ []) (by decide : cTg ≠ []) h0 f3
      rw [subPair_none (findCI_ltFree hc)] at estep
      exact estep
    show normPipe (stripTags (a ++ oT ++ b ++ cTg ++ c)) = _
    unfold stripTags
    rw [e1, e2, e3, subPair_ltFree hres, subAlt_ltFree hres, subAlt_ltFree hres]

/-- Witness for C1 (amended) at concrete tag-free segments. -/
theorem C1_pairing_amended_witness :
    clean_reasoning_output ("X".data ++ oT ++ "A".data ++ cTg ++ "B".data ++ cT ++ "C".data)
        = clean_reasoning_output ("X".data ++ ' ' :: "C".data)
    ∧ clean_reasoning_output ("X".data ++ oT ++ "A".data ++ cTg ++ "B".data)
        = clean_reasoning_output ("X".data ++ ' ' :: "B".data) := by
  constructor
  · exact C1_pairing_amended.1 "X".data "A".data "B".data "C".data
      (by decide) (by decide) (by decide) (by decide)
  · exact C1_pairing_amended.2 "X".data "A".data "B".data
      (by decide) (by decide) (by decide)

/-! ### C8: multiple independent spans -/

/-- C8: multiple non-nested same-spelling spans are removed independently,
left to right, each replaced by a single space, so the surrounding
tag-free fragments survive separated by one space; concretely the spec's
two-span example yields exactly `"Some content More content"`. -/
theorem C8_multi_span :
    (∀ a b c d e : List Char, '<' ∉ a → '<' ∉ b → '<' ∉ c → '<' ∉ d → '<' ∉ e →
        clean_reasoning_output (a ++ oT ++ b ++ cT ++ c ++ oT ++ d ++ cT ++ e)
          = clean_reasoning_output (a ++ ' ' :: (c ++ ' ' :: e)))
    ∧ clean_reasoning_output
        "<think>First thought</think>Some content<think>Second thought</think>More content".data
        = "Some content More content".data := by
  constructor
  · intro a b c d e ha hb hc hd he
    have hres : '<' ∉ (a ++ ' ' :: (c ++ ' ' :: e)) := by
      intro hmem
      rcases List.mem_append.mp hmem with h | h
      · exact ha h
      · rcases List.mem_cons.mp h with h | h
        · exact absurd h (by decide)
        · rcases List.mem_append.mp h with h | h
          · exact hc h
          · rcases List.mem_cons.mp h with h | h
            · exact absurd h (by decide)
            · exact he h
    have hne1 : (a ++ oT ++ b ++ cT ++ c ++ oT ++ d ++ cT ++ e) ≠ [] := by simp
    have hne2 : (a ++ ' ' :: (c ++ ' ' :: e)) ≠ [] := by simp
    rw [clean_eq_pipe hne1, clean_eq_pipe hne2, stripTags_ltFree hres]
    have hoT : oT ≠ [] := by decide
    have hcT : cT ≠ [] := by decide
    have e1 : subPair oT cT (a ++ oT ++ b ++ cT ++ c ++ oT ++ d ++ cT ++ e)
        = a ++ ' ' :: (c ++ ' ' :: e) := by
      have hs1 : findCI oT (oT ++ (b ++ (cT ++ (c ++ (oT ++ (d ++ (cT ++ e)))))))
          = some ([], b ++ (cT ++ (c ++ (oT ++ (d ++ (cT ++ e)))))) :=
        findCI_at_self (by decide) hoT _
      have f1 : findCI oT (a ++ (oT ++ (b ++ (cT ++ (c ++ (oT ++ (d ++ (cT ++ e))))))))
          = some (a, b ++ (cT ++ (c ++ (oT ++ (d ++ (cT ++ e)))))) := by
        have h0 := findCI_skip_some (SkipAll_ltFree ha) hs1
        simpa using h0
      have hs2 : findCI cT (cT ++ (c ++ (oT ++ (d ++ (cT ++ e)))))
          = some ([], c ++ (oT ++ (d ++ (cT ++ e)))) :=
        findCI_at_self (by decide) hcT _
      have f2 : findCI cT (b ++ (cT ++ (c ++ (oT ++ (d ++ (cT ++ e))))))
          = some (b, c ++ (oT ++ (d ++ (cT ++ e)))) := by
        have h0 := findCI_skip_some (SkipAll_ltFree hb) hs2
        simpa using h0
      have hs3 : findCI oT (oT ++ (d ++ (cT ++ e))) = some ([], d ++ (cT ++ e)) :=
        findCI_at_self (by decide) hoT _
      have f3 : findCI oT (c ++ (oT ++ (d ++ (cT ++ e)))) = some (c, d ++ (cT ++ e)) := by
        have h0 := findCI_skip_some (SkipAll_ltFree hc) hs3
        simpa using h0
      have hs4 : findCI cT (cT ++ e) = some ([], e) := findCI_at_self (by decide) hcT _
      have f4 : findCI cT (d ++ (cT ++ e)) = some (d, e) := by
        have h0 := findCI_skip_some (SkipAll_ltFree hd) hs4
        simpa using h0
      have estep2 := subPair_step hoT hcT f3 f4
      rw [subPair_none (findCI_ltFree he)] at estep2
      have estep1 := subPair_step hoT hcT f1 f2
      rw [estep2] at estep1
      simpa [List.append_assoc] using estep1
    show normPipe (stripTags (a ++ oT ++ b ++ cT ++ c ++ oT ++ d ++ cT ++ e)) = _
    unfold stripTags
    rw [e1, subPair_ltFree hres, subPair_ltFree hres, subPair_ltFree hres,
      subAlt_ltFree hres, subAlt_ltFree hres]
  · decide

/-- Witness for C8 at concrete tag-free segments. -/
theorem C8_multi_span_witness :
    clean_reasoning_output
        ("P".data ++ oT ++ "Q".data ++ cT ++ "R".data ++ oT ++ "S".data ++ cT ++ "T".data)
      = clean_reasoning_output ("P".data ++ ' ' :: ("R".data ++ ' ' :: "T".data)) :=
  C8_multi_span.1 "P".data "Q".data "R".data "S".data "T".data
    (by decide) (by decide) (by decide) (by decide) (by decide)

/-! ### Occurrence lemmas: monotonicity and the strip stage -/

theorem occB_pat_nil (v : List Char) : occB [] v = true := by
  cases v with
  | nil => rfl
  | cons c cs => simp [occB, ciMatch]

theorem isWS_toLower {c : Char} (h : isWS c = true) : c.toLower = c := by
  simp only [isWS, Bool.or_eq_true, decide_eq_true_eq] at h
  rcases h with ((((h | h) | h) | h) | h) | h <;> subst h <;> decide

theorem ciMatch_ws_head {pat : List Char} (hws : ∀ c ∈ pat, isWS c = false)
    (hne : pat ≠ []) {c : Char} (hc : isWS c = true) (z : List Char) :
    ciMatch pat (c :: z) = false := by
  cases pat with
  | nil => exact absurd rfl hne
  | cons q qs =>
    by_cases h : c.toLower = q
    · have hq : q = c := by rw [← h, isWS_toLower hc]
      have := hws q (List.mem_cons_self q qs)
      rw [hq, hc] at this
      exact absurd this (by simp)
    · simp [ciMatch, h]

theorem ciMatch_append_more {pat : List Char} :
    ∀ {x : List Char}, ciMatch pat x = true → ∀ t, ciMatch pat (x ++ t) = true := by
  induction pat with
  | nil => intro x h t; rfl
  | cons q qs ih =>
    intro x h t
    cases x with
    | nil => simp [ciMatch] at h
    | cons c cs =>
      simp only [ciMatch, Bool.and_eq_true] at h
      simp only [List.cons_append, ciMatch, Bool.and_eq_true]
      exact ⟨h.1, ih h.2 t⟩

theorem occB_cons_of {pat : List Char} {c : Char} {cs : List Char}
    (h : occB pat cs = true) : occB pat (c :: cs) = true := by
  simp [occB, h]

theorem occB_append_right {pat v : List Char} (u : List Char) (h : occB pat v = true) :
    occB pat (u ++ v) = true := by
  induction u with
  | nil => exact h
  | cons c cs ih => simp [occB, ih]

theorem occB_append_left {pat u : List Char} (v : List Char) (h : occB pat u = true) :
    occB pat (u ++ v) = true := by
  induction u with
  | nil =>
    have hpat : pat = [] := by
      cases pat with
      | nil => rfl
      | cons q qs => simp [occB, ciMatch] at h
    rw [hpat]
    exact occB_pat_nil v
  | cons c cs ih =>
    simp only [occB, Bool.or_eq_true] at h
    rcases h with h | h
    · have := ciMatch_append_more h v
      simp only [List.cons_append] at this ⊢
      simp [occB, this]
    · simp only [List.cons_append, occB, Bool.or_eq_true]
      exact Or.inr (ih h)

theorem occB_of_suffix {pat v z : List Char} (hsuf : v <:+ z) (h : occB pat v = true) :
    occB pat z = true := by
  obtain ⟨u, rfl⟩ := hsuf
  exact occB_append_right u h

theorem pyStrip_parts (z : List Char) : ∃ u w, z = u ++ (pyStrip z ++ w) := by
  refine ⟨z.takeWhile isWS, ((z.dropWhile isWS).reverse.takeWhile isWS).reverse, ?_⟩
  have h1 : z.takeWhile isWS ++ z.dropWhile isWS = z := List.takeWhile_append_dropWhile _ _
  have h2 : (z.dropWhile isWS).reverse.takeWhile isWS
      ++ (z.dropWhile isWS).reverse.dropWhile isWS = (z.dropWhile isWS).reverse :=
    List.takeWhile_append_dropWhile _ _
  have h3 := congrArg List.reverse h2
  rw [List.reverse_append, List.reverse_reverse] at h3
  show z = z.takeWhile isWS ++ (((z.dropWhile isWS).reverse.dropWhile isWS).reverse
    ++ ((z.dropWhile isWS).reverse.takeWhile isWS).reverse)
  rw [h3, h1]

theorem occB_pyStrip_reflect {pat z : List Char} (h : occB pat (pyStrip z) = true) :
    occB pat z = true := by
  obtain ⟨u, w, hz⟩ := pyStrip_parts z
  rw [hz]
  exact occB_append_right u (occB_append_left w h)

/-! ### Occurrence lemmas: the orphaned-tag passes -/

theorem ciMatch_subAlt_reflect {p1 p2 : List Char} (hp1 : p1 ≠ []) (hp2 : p2 ≠ []) :
    ∀ n, ∀ z pat : List Char, z.length ≤ n → ' ' ∉ pat →
      ciMatch pat (subAlt p1 p2 z) = true → ciMatch pat z = true := by
  intro n
  induction n with
  | zero =>
    intro z pat hz hsp h
    have hznil : z = [] := List.length_eq_zero.mp (Nat.le_zero.mp hz)
    subst hznil
    rwa [subAlt_nil] at h
  | succ n ih =>
    intro z pat hz hsp h
    cases z with
    | nil => rwa [subAlt_nil] at h
    | cons c cs =>
      have hcs : cs.length ≤ n := by
        simp only [List.length_cons] at hz
        omega
      by_cases hm1 : ciMatch p1 (c :: cs) = true
      · rw [subAlt_m1 hp1 hp2 hm1] at h
        cases pat with
        | nil => rfl
        | cons q qs =>
          exfalso
          simp only [ciMatch, Bool.and_eq_true, decide_eq_true_eq] at h
          have hq : q = ' ' := by
            have h1 := h.1
            rw [show (' ').toLower = ' ' from rfl] at h1
            exact h1.symm
          exact hsp (by rw [← hq]; exact List.mem_cons_self q qs)
      · have hm1' : ciMatch p1 (c :: cs) = false := by simpa using hm1
        by_cases hm2 : ciMatch p2 (c :: cs) = true
        · rw [subAlt_m2 hp1 hp2 hm1' hm2] at h
          cases pat with
          | nil => rfl
          | cons q qs =>
            exfalso
            simp only [ciMatch, Bool.and_eq_true, decide_eq_true_eq] at h
            have hq : q = ' ' := by
              have h1 := h.1
              rw [show (' ').toLower = ' ' from rfl] at h1
              exact h1.symm
            exact hsp (by rw [← hq]; exact List.mem_cons_self q qs)
        · have hm2' : ciMatch p2 (c :: cs) = false := by simpa using hm2
          rw [subAlt_keep hp1 hp2 hm1' hm2'] at h
          cases pat with
          | nil => rfl
          | cons q qs =>
            simp only [ciMatch, Bool.and_eq_true, decide_eq_true_eq] at h ⊢
            have hqs : ' ' ∉ qs := fun hmm => hsp (List.mem_cons_of_mem q hmm)
            exact ⟨h.1, ih cs qs hcs hqs h.2⟩

theorem occB_subAlt_reflect {p1 p2 : List Char} (hp1 : p1 ≠ []) (hp2 : p2 ≠ []) :
    ∀ n, ∀ z pat : List Char, z.length ≤ n → ' ' ∉ pat →
      occB pat (subAlt p1 p2 z) = true → occB pat z = true := by
  intro n
  induction n with
  | zero =>
    intro z pat hz hsp h
    have hznil : z = [] := List.length_eq_zero.mp (Nat.le_zero.mp hz)
    subst hznil
    rwa [subAlt_nil] at h
  | succ n ih =>
    intro z pat hz hsp h
    cases z with
    | nil => rwa [subAlt_nil] at h
    | cons c cs =>
      have hcs : cs.length ≤ n := by
        simp only [List.length_cons] at hz
        omega
      have hp1len : 1 ≤ p1.length := by
        cases p1 with
        | nil => exact absurd rfl hp1
        | cons y ys => simp
      have hp2len : 1 ≤ p2.length := by
        cases p2 with
        | nil => exact absurd rfl hp2
        | cons y ys => simp
      by_cases hm1 : ciMatch p1 (c :: cs) = true
      · rw [subAlt_m1 hp1 hp2 hm1] at h
        simp only [occB, Bool.or_eq_true] at h
        rcases h with h | h
        · cases pat with
          | nil => exact occB_pat_nil (c :: cs)
          | cons q qs =>
            exfalso
            simp only [ciMatch, Bool.and_eq_true, decide_eq_true_eq] at h
            have hq : q = ' ' := by
              have h1 := h.1
              rw [show (' ').toLower = ' ' from rfl] at h1
              exact h1.symm
            exact hsp (by rw [← hq]; exact List.mem_cons_self q qs)
        · have hdlen : ((c :: cs).drop p1.length).length ≤ n := by
            simp only [List.length_drop, List.length_cons]
            omega
          have h2 := ih ((c :: cs).drop p1.length) pat hdlen hsp h
          exact occB_of_suffix (List.drop_suffix _ _) h2
      · have hm1' : ciMatch p1 (c :: cs) = false := by simpa using hm1
        by_cases hm2 : ciMatch p2 (c :: cs) = true
        · rw [subAlt_m2 hp1 hp2 hm1' hm2] at h
          simp only [occB, Bool.or_eq_true] at h
          rcases h with h | h
          · cases pat with
            | nil => exact occB_pat_nil (c :: cs)
            | cons q qs =>
              exfalso
              simp only [ciMatch, Bool.and_eq_true, decide_eq_true_eq] at h
              have hq : q = ' ' := by
                have h1 := h.1
                rw [show (' ').toLower = ' ' from rfl] at h1
                exact h1.symm
              exact hsp (by rw [← hq]; exact List.mem_cons_self q qs)
          · have hdlen : ((c :: cs).drop p2.length).length ≤ n := by
              simp only [List.length_drop, List.length_cons]
              omega
            have h2 := ih ((c :: cs).drop p2.length) pat hdlen hsp h
            exact occB_of_suffix (List.drop_suffix _ _) h2
        · have hm2' : ciMatch p2 (c :: cs) = false := by simpa using hm2
          rw [subAlt_keep hp1 hp2 hm1' hm2'] at h
          simp only [occB, Bool.or_eq_true] at h ⊢
          rcases h with h | h
          · cases pat with
            | nil => left; rfl
            | cons q qs =>
              left
              simp only [ciMatch, Bool.and_eq_true, decide_eq_true_eq] at h ⊢
              have hqs : ' ' ∉ qs := fun hmm => hsp (List.mem_cons_of_mem q hmm)
              exact ⟨h.1, ciMatch_subAlt_reflect hp1 hp2 cs.length cs qs le_rfl hqs h.2⟩
          · exact Or.inr (ih cs pat hcs hsp h)

theorem subAlt_removes {t1 t2 : List Char} (ht1sp : ' ' ∉ ('<' :: t1))
    (ht2sp : ' ' ∉ ('<' :: t2)) :
    ∀ n, ∀ z : List Char, z.length ≤ n →
      occB ('<' :: t1) (subAlt ('<' :: t1) ('<' :: t2) z) = false
      ∧ occB ('<' :: t2) (subAlt ('<' :: t1) ('<' :: t2) z) = false := by
  have hp1 : ('<' :: t1) ≠ [] := by simp
  have hp2 : ('<' :: t2) ≠ [] := by simp
  intro n
  induction n with
  | zero =>
    intro z hz
    have hznil : z = [] := List.length_eq_zero.mp (Nat.le_zero.mp hz)
    subst hznil
    rw [subAlt_nil]
    exact ⟨rfl, rfl⟩
  | succ n ih =>
    intro z hz
    cases z with
    | nil =>
      rw [subAlt_nil]
      exact ⟨rfl, rfl⟩
    | cons c cs =>
      have hcs : cs.length ≤ n := by
        simp only [List.length_cons] at hz
        omega
      have hsphead : ciMatch ('<' :: t1) (' ' :: subAlt ('<' :: t1) ('<' :: t2)
          ((c :: cs).drop ('<' :: t1).length)) = false :=
        ciMatch_head_lt t1 (by decide) _
      by_cases hm1 : ciMatch ('<' :: t1) (c :: cs) = true
      · rw [subAlt_m1 hp1 hp2 hm1]
        have hdlen : ((c :: cs).drop ('<' :: t1).length).length ≤ n := by
          simp only [List.length_drop, List.length_cons]
          omega
        obtain ⟨ih1, ih2⟩ := ih ((c :: cs).drop ('<' :: t1).length) hdlen
        simp only [List.length_cons, List.drop_succ_cons] at ih1 ih2
        constructor
        · simp [occB, ciMatch_head_lt t1 (by decide : ' ' ≠ '<'), ih1]
        · simp [occB, ciMatch_head_lt t2 (by decide : ' ' ≠ '<'), ih2]
      · have hm1' : ciMatch ('<' :: t1) (c :: cs) = false := by simpa using hm1
        by_cases hm2 : ciMatch ('<' :: t2) (c :: cs) = true
        · rw [subAlt_m2 hp1 hp2 hm1' hm2]
          have hdlen : ((c :: cs).drop ('<' :: t2).length).length ≤ n := by
            simp only [List.length_drop, List.length_cons]
            omega
          obtain ⟨ih1, ih2⟩ := ih ((c :: cs).drop ('<' :: t2).length) hdlen
          simp only [List.length_cons, List.drop_succ_cons] at ih1 ih2
          constructor
          · simp [occB, ciMatch_head_lt t1 (by decide : ' ' ≠ '<'), ih1]
          · simp [occB, ciMatch_head_lt t2 (by decide : ' ' ≠ '<'), ih2]
        · have hm2' : ciMatch ('<' :: t2) (c :: cs) = false := by simpa using hm2
          rw [subAlt_keep hp1 hp2 hm1' hm2']
          obtain ⟨ih1, ih2⟩ := ih cs hcs
          have hsub1 : ' ' ∉ t1 := fun hmm => ht1sp (List.mem_cons_of_mem '<' hmm)
          have hsub2 : ' ' ∉ t2 := fun hmm => ht2sp (List.mem_cons_of_mem '<' hmm)
          have hhead1 : ciMatch ('<' :: t1)
              (c :: subAlt ('<' :: t1) ('<' :: t2) cs) = false := by
            by_contra hcon
            have hcon' : ciMatch ('<' :: t1)
                (c :: subAlt ('<' :: t1) ('<' :: t2) cs) = true := by
              simpa using hcon
            simp only [ciMatch, Bool.and_eq_true, decide_eq_true_eq] at hcon'
            have hrf := ciMatch_subAlt_reflect hp1 hp2 cs.length cs t1 le_rfl hsub1 hcon'.2
            have : ciMatch ('<' :: t1) (c :: cs) = true := by
              simp only [ciMatch, Bool.and_eq_true, decide_eq_true_eq]
              exact ⟨hcon'.1, hrf⟩
            rw [this] at hm1'
            exact absurd hm1' (by simp)
          have hhead2 : ciMatch ('<' :: t2)
              (c :: subAlt ('<' :: t1) ('<' :: t2) cs) = false := by
            by_contra hcon
            have hcon' : ciMatch ('<' :: t2)
                (c :: subAlt ('<' :: t1) ('<' :: t2) cs) = true := by
              simpa using hcon
            simp only [ciMatch, Bool.and_eq_true, decide_eq_true_eq] at hcon'
            have hrf := ciMatch_subAlt_reflect hp1 hp2 cs.length cs t2 le_rfl hsub2 hcon'.2
            have : ciMatch ('<' :: t2) (c :: cs) = true := by
              simp only [ciMatch, Bool.and_eq_true, decide_eq_true_eq]
              exact ⟨hcon'.1, hrf⟩
            rw [this] at hm2'
            exact absurd hm2' (by simp)
          constructor
          · simp [occB, hhead1, ih1]
          · simp [occB, hhead2, ih2]

/-! ### Occurrence lemmas: the whitespace passes -/

theorem ciMatch_csp_reflect :
    ∀ z pat : List Char, ' ' ∉ pat →
      ciMatch pat (collapseSpacesAux false z) = true → ciMatch pat z = true := by
  intro z
  induction z with
  | nil =>
    intro pat _ h
    exact h
  | cons c cs ih =>
    intro pat hsp h
    by_cases hst : isST c = true
    · rw [show collapseSpacesAux false (c :: cs) = ' ' :: collapseSpacesAux true cs from by
        simp [collapseSpacesAux, hst]] at h
      cases pat with
      | nil => rfl
      | cons q qs =>
        exfalso
        simp only [ciMatch, Bool.and_eq_true, decide_eq_true_eq] at h
        have hq : q = ' ' := by
          have h1 := h.1
          rw [show (' ').toLower = ' ' from rfl] at h1
          exact h1.symm
        exact hsp (by rw [← hq]; exact List.mem_cons_self q qs)
    · have hst' : isST c = false := by simpa using hst
      rw [show collapseSpacesAux false (c :: cs) = c :: collapseSpacesAux false cs from by
        simp [collapseSpacesAux, hst']] at h
      cases pat with
      | nil => rfl
      | cons q qs =>
        simp only [ciMatch, Bool.and_eq_true, decide_eq_true_eq] at h ⊢
        have hqs : ' ' ∉ qs := fun hmm => hsp (List.mem_cons_of_mem q hmm)
        exact ⟨h.1, ih qs hqs h.2⟩

theorem occB_csp_reflect :
    ∀ z : List Char, ∀ (b : Bool) (pat : List Char), ' ' ∉ pat →
      occB pat (collapseSpacesAux b z) = true → occB pat z = true := by
  intro z
  induction z with
  | nil =>
    intro b pat _ h
    exact h
  | cons c cs ih =>
    intro b pat hsp h
    by_cases hst : isST c = true
    · cases b with
      | true =>
        rw [show collapseSpacesAux true (c :: cs) = collapseSpacesAux true cs from by
          simp [collapseSpacesAux, hst]] at h
        exact occB_cons_of (ih true pat hsp h)
      | false =>
        rw [show collapseSpacesAux false (c :: cs) = ' ' :: collapseSpacesAux true cs from by
          simp [collapseSpacesAux, hst]] at h
        simp only [occB, Bool.or_eq_true] at h
        rcases h with h | h
        · cases pat with
          | nil => exact occB_pat_nil _
          | cons q qs =>
            exfalso
            simp only [ciMatch, Bool.and_eq_true, decide_eq_true_eq] at h
            have hq : q = ' ' := by
              have h1 := h.1
              rw [show (' ').toLower = ' ' from rfl] at h1
              exact h1.symm
            exact hsp (by rw [← hq]; exact List.mem_cons_self q qs)
        · exact occB_cons_of (ih true pat hsp h)
    · have hst' : isST c = false := by simpa using hst
      rw [show collapseSpacesAux b (c :: cs) = c :: collapseSpacesAux false cs from by
        simp [collapseSpacesAux, hst']] at h
      simp only [occB, Bool.or_eq_true] at h ⊢
      rcases h with h | h
      · cases pat with
        | nil => left; rfl
        | cons q qs =>
          left
          simp only [ciMatch, Bool.and_eq_true, decide_eq_true_eq] at h ⊢
          have hqs : ' ' ∉ qs := fun hmm => hsp (List.mem_cons_of_mem q hmm)
          exact ⟨h.1, ciMatch_csp_reflect cs qs hqs h.2⟩
      · exact Or.inr (ih false pat hsp h)

theorem nlGuard_head {c : Char} {cs : List Char} (h : nlGuard (c :: cs) = true) : c = '\n' := by
  simp only [nlGuard, Bool.and_eq_true, decide_eq_true_eq] at h
  exact h.1

theorem mem_afterLastNL {r : List Char} {c : Char} (h : c ∈ afterLastNL r) : c ∈ r := by
  unfold afterLastNL at h
  rw [List.mem_reverse] at h
  have h2 : c ∈ r.reverse := (List.takeWhile_sublist _).subset h
  rwa [List.mem_reverse] at h2

theorem occB_ws_skip {pat : List Char} (hws : ∀ c ∈ pat, isWS c = false) (hne : pat ≠ []) :
    ∀ w v : List Char, (∀ c ∈ w, isWS c = true) → occB pat (w ++ v) = true →
      occB pat v = true := by
  intro w
  induction w with
  | nil =>
    intro v _ h
    exact h
  | cons x xs ih =>
    intro v hall h
    simp only [List.cons_append, occB, Bool.or_eq_true] at h
    rcases h with h | h
    · rw [ciMatch_ws_head hws hne (hall x (List.mem_cons_self x xs)) _] at h
      exact absurd h (by simp)
    · exact ih v (fun c hc => hall c (List.mem_cons_of_mem x hc)) h

theorem ciMatch_cnl_reflect :
    ∀ n, ∀ z pat : List Char, z.length ≤ n → (∀ c ∈ pat, isWS c = false) →
      ciMatch pat (collapseNLs z) = true → ciMatch pat z = true := by
  intro n
  induction n with
  | zero =>
    intro z pat hz _ h
    have hznil : z = [] := List.length_eq_zero.mp (Nat.le_zero.mp hz)
    subst hznil
    exact h
  | succ n ih =>
    intro z pat hz hws h
    cases z with
    | nil => exact h
    | cons c cs =>
      have hcs : cs.length ≤ n := by
        simp only [List.length_cons] at hz
        omega
      by_cases hg : nlGuard (c :: cs) = true
      · rw [collapseNLs_match hg] at h
        cases pat with
        | nil => rfl
        | cons q qs =>
          exfalso
          simp only [ciMatch, Bool.and_eq_true, decide_eq_true_eq] at h
          have hq : q = '\n' := by
            have h1 := h.1
            rw [show ('\n').toLower = '\n' from rfl] at h1
            exact h1.symm
          have := hws q (List.mem_cons_self q qs)
          rw [hq] at this
          exact absurd this (by decide)
      · have hg' : nlGuard (c :: cs) = false := by simpa using hg
        rw [collapseNLs_keep hg'] at h
        cases pat with
        | nil => rfl
        | cons q qs =>
          simp only [ciMatch, Bool.and_eq_true, decide_eq_true_eq] at h ⊢
          have hqs : ∀ x ∈ qs, isWS x = false := fun x hx =>
            hws x (List.mem_cons_of_mem q hx)
          exact ⟨h.1, ih cs qs hcs hqs h.2⟩

theorem occB_cnl_reflect {pat : List Char} (hws : ∀ c ∈ pat, isWS c = false)
    (hne : pat ≠ []) :
    ∀ n, ∀ z : List Char, z.length ≤ n →
      occB pat (collapseNLs z) = true → occB pat z = true := by
  intro n
  induction n with
  | zero =>
    intro z hz h
    have hznil : z = [] := List.length_eq_zero.mp (Nat.le_zero.mp hz)
    subst hznil
    exact h
  | succ n ih =>
    intro z hz h
    cases z with
    | nil => exact h
    | cons c cs =>
      have hcs : cs.length ≤ n := by
        simp only [List.length_cons] at hz
        omega
      by_cases hg : nlGuard (c :: cs) = true
      · rw [collapseNLs_match hg] at h
        have hnlmatch : ∀ v : List Char, ciMatch pat ('\n' :: v) = false :=
          fun v => ciMatch_ws_head hws hne (by decide) v
        simp only [occB, hnlmatch, Bool.false_or] at h
        have hR2 : ∀ x ∈ afterLastNL ((c :: cs).takeWhile isWS), isWS x = true := by
          intro x hx
          exact List.mem_takeWhile_imp (mem_afterLastNL hx)
        have h2 := occB_ws_skip hws hne _ _ hR2 h
        have hWSc : isWS c = true := by
          rw [nlGuard_head hg]
          decide
        have hdw : (c :: cs).dropWhile isWS = cs.dropWhile isWS := by
          simp [List.dropWhile_cons, hWSc]
        have hdlen : ((c :: cs).dropWhile isWS).length ≤ n := by
          rw [hdw]
          have hsl : cs.dropWhile isWS <:+ cs := List.dropWhile_suffix isWS
          have := hsl.length_le
          omega
        have h3 := ih _ hdlen h2
        exact occB_of_suffix (List.dropWhile_suffix isWS) h3
      · have hg' : nlGuard (c :: cs) = false := by simpa using hg
        rw [collapseNLs_keep hg'] at h
        simp only [occB, Bool.or_eq_true] at h ⊢
        rcases h with h | h
        · cases pat with
          | nil => left; rfl
          | cons q qs =>
            left
            simp only [ciMatch, Bool.and_eq_true, decide_eq_true_eq] at h ⊢
            have hqs : ∀ x ∈ qs, isWS x = false := fun x hx =>
              hws x (List.mem_cons_of_mem q hx)
            exact ⟨h.1, ciMatch_cnl_reflect cs.length cs qs le_rfl hqs h.2⟩
        · exact Or.inr (ih cs hcs h)

/-! ### Occurrence lemmas: split, reflow and join -/

theorem ciMatch_cut_at_nl {pat : List Char} (hws : ∀ c ∈ pat, isWS c = false) :
    ∀ u v : List Char, ciMatch pat (u ++ '\n' :: v) = true → ciMatch pat u = true := by
  induction pat with
  | nil =>
    intro u v _
    rfl
  | cons q qs ih =>
    intro u v h
    cases u with
    | nil =>
      exfalso
      simp only [List.nil_append] at h
      have hf := ciMatch_ws_head hws (by simp) (show isWS '\n' = true by decide) v
      rw [hf] at h
      exact absurd h (by simp)
    | cons x xs =>
      simp only [List.cons_append, ciMatch, Bool.and_eq_true, decide_eq_true_eq] at h ⊢
      have hqs : ∀ c ∈ qs, isWS c = false := fun c hc => hws c (List.mem_cons_of_mem q hc)
      exact ⟨h.1, ih hqs xs v h.2⟩

theorem occB_append_nl_split {pat : List Char} (hws : ∀ c ∈ pat, isWS c = false)
    (hne : pat ≠ []) :
    ∀ u v : List Char, occB pat (u ++ '\n' :: v) = true →
      occB pat u = true ∨ occB pat v = true := by
  intro u
  induction u with
  | nil =>
    intro v h
    simp only [List.nil_append, occB, Bool.or_eq_true] at h
    rcases h with h | h
    · rw [ciMatch_ws_head hws hne (by decide) v] at h
      exact absurd h (by simp)
    · exact Or.inr h
  | cons x xs ih =>
    intro v h
    simp only [List.cons_append, occB, Bool.or_eq_true] at h
    rcases h with h | h
    · left
      have h2 : ciMatch pat ((x :: xs) ++ '\n' :: v) = true := by
        simpa using h
      have h3 := ciMatch_cut_at_nl hws (x :: xs) v h2
      simp [occB, h3]
    · rcases ih v h with h | h
      · exact Or.inl (occB_cons_of h)
      · exact Or.inr h

theorem occB_joinNL {pat : List Char} (hws : ∀ c ∈ pat, isWS c = false) (hne : pat ≠ []) :
    ∀ ls : List (List Char), occB pat (joinNL ls) = true →
      ∃ l ∈ ls, occB pat l = true := by
  intro ls
  induction ls with
  | nil =>
    intro h
    rw [show joinNL [] = [] from rfl] at h
    rw [show occB pat [] = ciMatch pat [] from rfl, ciMatch_nil_false hne] at h
    exact absurd h (by simp)
  | cons l ls ih =>
    intro h
    cases ls with
    | nil =>
      rw [show joinNL [l] = l from rfl] at h
      exact ⟨l, List.mem_cons_self l [], h⟩
    | cons l2 rest =>
      rw [show joinNL (l :: l2 :: rest) = l ++ '\n' :: joinNL (l2 :: rest) from rfl] at h
      rcases occB_append_nl_split hws hne l (joinNL (l2 :: rest)) h with h | h
      · exact ⟨l, List.mem_cons_self l _, h⟩
      · obtain ⟨l', hmem, hl'⟩ := ih h
        exact ⟨l', List.mem_cons_of_mem l hmem, hl'⟩

theorem occB_joinNL_of_mem {pat l : List Char} :
    ∀ ls : List (List Char), l ∈ ls → occB pat l = true → occB pat (joinNL ls) = true := by
  intro ls
  induction ls with
  | nil =>
    intro hmem _
    exact absurd hmem (List.not_mem_nil l)
  | cons l1 rest ih =>
    intro hmem h
    rcases List.mem_cons.mp hmem with rfl | hmem
    · cases rest with
      | nil => exact h
      | cons l2 rest2 =>
        rw [show joinNL (l :: l2 :: rest2) = l ++ '\n' :: joinNL (l2 :: rest2) from rfl]
        exact occB_append_left _ h
    · cases rest with
      | nil => exact absurd hmem (List.not_mem_nil l)
      | cons l2 rest2 =>
        rw [show joinNL (l1 :: l2 :: rest2) = l1 ++ '\n' :: joinNL (l2 :: rest2) from rfl]
        exact occB_append_right l1 (occB_cons_of (ih hmem h))

theorem splitNL_ne_nil : ∀ t : List Char, splitNL t ≠ [] := by
  intro t
  cases t with
  | nil => simp [splitNL]
  | cons c cs =>
    by_cases hc : c = '\n'
    · simp [splitNL, hc]
    · simp only [splitNL, hc, if_false]
      cases h : splitNL cs with
      | nil => simp
      | cons l ls => simp

theorem joinNL_splitNL : ∀ t : List Char, joinNL (splitNL t) = t := by
  intro t
  induction t with
  | nil => rfl
  | cons c cs ih =>
    by_cases hc : c = '\n'
    · subst hc
      simp only [splitNL, if_true]
      cases h : splitNL cs with
      | nil => exact absurd h (splitNL_ne_nil cs)
      | cons l ls =>
        rw [show joinNL ([] :: l :: ls) = [] ++ '\n' :: joinNL (l :: ls) from rfl]
        rw [h] at ih
        simp [ih]
    · simp only [splitNL, hc, if_false]
      cases h : splitNL cs with
      | nil => exact absurd h (splitNL_ne_nil cs)
      | cons l ls =>
        rw [h] at ih
        cases ls with
        | nil =>
          rw [show joinNL [c :: l] = c :: l from rfl]
          rw [show joinNL [l] = l from rfl] at ih
          rw [ih]
        | cons l2 rest =>
          rw [show joinNL ((c :: l) :: l2 :: rest) = (c :: l) ++ '\n' :: joinNL (l2 :: rest)
            from rfl]
          rw [show joinNL (l :: l2 :: rest) = l ++ '\n' :: joinNL (l2 :: rest) from rfl] at ih
          simp only [List.cons_append]
          rw [ih]

theorem reflowStep_mem {x line : List Char} {i : Nat} {acc : List (List Char)}
    (hx : x ∈ reflowStep i acc line) : x = pyStrip line ∨ x = [] ∨ x ∈ acc := by
  simp only [reflowStep] at hx
  by_cases h1 : (pyStrip line).isEmpty
  · rw [if_pos h1] at hx
    rcases List.mem_cons.mp hx with h | h
    · exact Or.inr (Or.inl h)
    · exact Or.inr (Or.inr h)
  · rw [if_neg h1] at hx
    by_cases h2 : (hashStart (pyStrip line) && !(i == 0) && headNB acc) = true
    · rw [if_pos h2] at hx
      by_cases h3 : ((bulletStart (pyStrip line) || numDotStart (pyStrip line)) && !(i == 0)
          && headNotList ([] :: acc)) = true
      · rw [if_pos h3] at hx
        rcases List.mem_cons.mp hx with h | h
        · exact Or.inl h
        rcases List.mem_cons.mp h with h | h
        · exact Or.inr (Or.inl h)
        rcases List.mem_cons.mp h with h | h
        · exact Or.inr (Or.inl h)
        · exact Or.inr (Or.inr h)
      · rw [if_neg h3] at hx
        rcases List.mem_cons.mp hx with h | h
        · exact Or.inl h
        rcases List.mem_cons.mp h with h | h
        · exact Or.inr (Or.inl h)
        · exact Or.inr (Or.inr h)
    · rw [if_neg h2] at hx
      by_cases h3 : ((bulletStart (pyStrip line) || numDotStart (pyStrip line)) && !(i == 0)
          && headNotList acc) = true
      · rw [if_pos h3] at hx
        rcases List.mem_cons.mp hx with h | h
        · exact Or.inl h
        rcases List.mem_cons.mp h with h | h
        · exact Or.inr (Or.inl h)
        · exact Or.inr (Or.inr h)
      · rw [if_neg h3] at hx
        rcases List.mem_cons.mp hx with h | h
        · exact Or.inl h
        · exact Or.inr (Or.inr h)

theorem reflowGo_mem :
    ∀ (ls : List (List Char)) (i : Nat) (acc : List (List Char)) (x : List Char),
      x ∈ reflowGo i acc ls → x ∈ acc ∨ x = [] ∨ ∃ l ∈ ls, x = pyStrip l := by
  intro ls
  induction ls with
  | nil =>
    intro i acc x hx
    exact Or.inl hx
  | cons l ls' ih =>
    intro i acc x hx
    rcases ih (i + 1) (reflowStep i acc l) x hx with h | h | ⟨l', hmem, rfl⟩
    · rcases reflowStep_mem h with h | h | h
      · exact Or.inr (Or.inr ⟨l, List.mem_cons_self l ls', h⟩)
      · exact Or.inr (Or.inl h)
      · exact Or.inl h
    · exact Or.inr (Or.inl h)
    · exact Or.inr (Or.inr ⟨l', List.mem_cons_of_mem l hmem, rfl⟩)

theorem reflowAll_mem {x : List Char} {ls : List (List Char)} (hx : x ∈ reflowAll ls) :
    x = [] ∨ ∃ l ∈ ls, x = pyStrip l := by
  unfold reflowAll at hx
  rw [List.mem_reverse] at hx
  rcases reflowGo_mem ls 0 [] x hx with h | h | h
  · exact absurd h (List.not_mem_nil x)
  · exact Or.inl h
  · exact Or.inr h

theorem occB_normPipe_reflect {pat : List Char} (hws : ∀ c ∈ pat, isWS c = false)
    (hne : pat ≠ []) :
    ∀ x : List Char, occB pat (normPipe x) = true → occB pat x = true := by
  have hsp : ' ' ∉ pat := by
    intro hmem
    have := hws ' ' hmem
    exact absurd this (by decide)
  intro x h
  unfold normPipe at h
  have h1 := occB_pyStrip_reflect h
  obtain ⟨l', hl'mem, hl'⟩ := occB_joinNL hws hne _ h1
  rcases reflowAll_mem hl'mem with rfl | ⟨l, hlmem, rfl⟩
  · rw [show occB pat [] = ciMatch pat [] from rfl, ciMatch_nil_false hne] at hl'
    exact absurd hl' (by simp)
  · have h2 := occB_pyStrip_reflect hl'
    have h3 := occB_joinNL_of_mem _ hlmem h2
    rw [joinNL_splitNL] at h3
    have h4 := occB_pyStrip_reflect h3
    have h5 := occB_cnl_reflect hws hne (collapseSpaces x).length _ le_rfl h4
    exact occB_csp_reflect x false pat hsp h5

/-! ### C4: the output contains no reasoning tags -/

theorem clean_no_tags_aux (s : List Char) :
    occB oT (clean_reasoning_output s) = false
    ∧ occB cT (clean_reasoning_output s) = false
    ∧ occB oTg (clean_reasoning_output s) = false
    ∧ occB cTg (clean_reasoning_output s) = false := by
  by_cases hs : s = []
  · subst hs
    exact ⟨by decide, by decide, by decide, by decide⟩
  · rw [clean_eq_pipe hs]
    unfold stripTags
    set P := subPair oTg cT (subPair oT cTg (subPair oTg cTg (subPair oT cT s))) with hP
    have hrm1 := subAlt_removes (show ' ' ∉ oT by decide) (show ' ' ∉ cT by decide)
      P.length P le_rfl
    have hrm2 := subAlt_removes (show ' ' ∉ oTg by decide) (show ' ' ∉ cTg by decide)
      (subAlt oT cT P).length (subAlt oT cT P) le_rfl
    refine ⟨?_, ?_, ?_, ?_⟩
    · by_contra hcon
      have h : occB oT (normPipe (subAlt oTg cTg (subAlt oT cT P))) = true := by
        simpa using hcon
      have h2 := occB_normPipe_reflect (by decide) (by decide) _ h
      have h3 := occB_subAlt_reflect (show oTg ≠ [] by decide) (show cTg ≠ [] by decide)
        (subAlt oT cT P).length (subAlt oT cT P) oT le_rfl (by decide) h2
      rw [hrm1.1] at h3
      exact absurd h3 (by simp)
    · by_contra hcon
      have h : occB cT (normPipe (subAlt oTg cTg (subAlt oT cT P))) = true := by
        simpa using hcon
      have h2 := occB_normPipe_reflect (by decide) (by decide) _ h
      have h3 := occB_subAlt_reflect (show oTg ≠ [] by decide) (show cTg ≠ [] by decide)
        (subAlt oT cT P).length (subAlt oT cT P) cT le_rfl (by decide) h2
      rw [hrm1.2] at h3
      exact absurd h3 (by simp)
    · by_contra hcon
      have h : occB oTg (normPipe (subAlt oTg cTg (subAlt oT cT P))) = true := by
        simpa using hcon
      have h2 := occB_normPipe_reflect (by decide) (by decide) _ h
      rw [hrm2.1] at h2
      exact absurd h2 (by simp)
    · by_contra hcon
      have h : occB cTg (normPipe (subAlt oTg cTg (subAlt oT cT P))) = true := by
        simpa using hcon
      have h2 := occB_normPipe_reflect (by decide) (by decide) _ h
      rw [hrm2.2] at h2
      exact absurd h2 (by simp)


/-- C4: for every input, the cleaned output contains no case-insensitive
occurrence of `<think>`, `</think>`, `<thinking>` or `</thinking>`:
the paired passes and the orphaned-tag passes remove every occurrence of
the two `think` spellings and then of the two `thinking` spellings, each
replaced by a space, and the whitespace/structure pipeline can reintroduce
none of them. -/
theorem C4_no_tags (s : List Char) :
    occB oT (clean_reasoning_output s) = false
    ∧ occB cT (clean_reasoning_output s) = false
    ∧ occB oTg (clean_reasoning_output s) = false
    ∧ occB cTg (clean_reasoning_output s) = false :=
  clean_no_tags_aux s

/-! ### Normalization: the space-collapsing pass -/

theorem cspAux_st_skip {c : Char} {cs : List Char} (h : isST c = true) :
    collapseSpacesAux true (c :: cs) = collapseSpacesAux true cs := by
  simp [collapseSpacesAux, h]

theorem cspAux_st_emit {c : Char} {cs : List Char} (h : isST c = true) :
    collapseSpacesAux false (c :: cs) = ' ' :: collapseSpacesAux true cs := by
  simp [collapseSpacesAux, h]

theorem cspAux_keep {b : Bool} {c : Char} {cs : List Char} (h : isST c = false) :
    collapseSpacesAux b (c :: cs) = c :: collapseSpacesAux false cs := by
  simp [collapseSpacesAux, h]

theorem cspAux_chars :
    ∀ (z : List Char) (b : Bool) (c : Char), c ∈ collapseSpacesAux b z →
      c = ' ' ∨ (c ∈ z ∧ isST c = false) := by
  intro z
  induction z with
  | nil =>
    intro b c hc
    exact absurd hc (List.not_mem_nil c)
  | cons x xs ih =>
    intro b c hc
    by_cases hst : isST x = true
    · cases b with
      | true =>
        rw [cspAux_st_skip hst] at hc
        rcases ih true c hc with h | ⟨h1, h2⟩
        · exact Or.inl h
        · exact Or.inr ⟨List.mem_cons_of_mem x h1, h2⟩
      | false =>
        rw [cspAux_st_emit hst] at hc
        rcases List.mem_cons.mp hc with h | h
        · exact Or.inl h
        · rcases ih true c h with h | ⟨h1, h2⟩
          · exact Or.inl h
          · exact Or.inr ⟨List.mem_cons_of_mem x h1, h2⟩
    · have hst' : isST x = false := by simpa using hst
      rw [cspAux_keep hst'] at hc
      rcases List.mem_cons.mp hc with h | h
      · subst h
        exact Or.inr ⟨List.mem_cons_self c xs, hst'⟩
      · rcases ih false c h with h | ⟨h1, h2⟩
        · exact Or.inl h
        · exact Or.inr ⟨List.mem_cons_of_mem x h1, h2⟩

theorem cspAux_headST : ∀ z : List Char, headST (collapseSpacesAux true z) = false := by
  intro z
  induction z with
  | nil => rfl
  | cons x xs ih =>
    by_cases hst : isST x = true
    · rw [cspAux_st_skip hst]
      exact ih
    · have hst' : isST x = false := by simpa using hst
      rw [cspAux_keep hst']
      simpa [headST] using hst'

theorem noAdjSTB_cons_of {c : Char} {X : List Char}
    (h1 : isST c = false ∨ headST X = false) (h2 : noAdjSTB X = true) :
    noAdjSTB (c :: X) = true := by
  cases X with
  | nil => rfl
  | cons x xs =>
    show (!(isST c && isST x) && noAdjSTB (x :: xs)) = true
    rcases h1 with h | h
    · simp [h, h2]
    · simp only [headST] at h
      simp [h, h2]

theorem noAdjSTB_tail {c : Char} {X : List Char} (h : noAdjSTB (c :: X) = true) :
    noAdjSTB X = true := by
  cases X with
  | nil => rfl
  | cons x xs =>
    have h2 : (!(isST c && isST x) && noAdjSTB (x :: xs)) = true := h
    simp only [Bool.and_eq_true] at h2
    exact h2.2

theorem noAdjSTB_pair {c : Char} {X : List Char} (h : noAdjSTB (c :: X) = true)
    (hc : isST c = true) : headST X = false := by
  cases X with
  | nil => rfl
  | cons x xs =>
    have h2 : (!(isST c && isST x) && noAdjSTB (x :: xs)) = true := h
    simp only [Bool.and_eq_true, Bool.not_eq_true'] at h2
    have h3 := h2.1
    rw [hc] at h3
    show isST x = false
    simpa using h3

theorem cspAux_noAdj : ∀ (z : List Char) (b : Bool),
    noAdjSTB (collapseSpacesAux b z) = true := by
  intro z
  induction z with
  | nil =>
    intro b
    rfl
  | cons x xs ih =>
    intro b
    by_cases hst : isST x = true
    · cases b with
      | true =>
        rw [cspAux_st_skip hst]
        exact ih true
      | false =>
        rw [cspAux_st_emit hst]
        exact noAdjSTB_cons_of (Or.inr (cspAux_headST xs)) (ih true)
    · have hst' : isST x = false := by simpa using hst
      rw [cspAux_keep hst']
      exact noAdjSTB_cons_of (Or.inl hst') (ih false)

theorem cspAux_countNL : ∀ (z : List Char) (b : Bool),
    (collapseSpacesAux b z).count '\n' = z.count '\n' := by
  intro z
  induction z with
  | nil =>
    intro b
    rfl
  | cons x xs ih =>
    intro b
    by_cases hst : isST x = true
    · have hxn : x ≠ '\n' := by
        intro hx
        rw [hx] at hst
        exact absurd hst (by decide)
      cases b with
      | true =>
        rw [cspAux_st_skip hst, List.count_cons]
        simp [ih true, hxn]
      | false =>
        rw [cspAux_st_emit hst, List.count_cons, List.count_cons]
        simp [ih true, hxn]
    · have hst' : isST x = false := by simpa using hst
      rw [cspAux_keep hst', List.count_cons, List.count_cons, ih false]

theorem cspAux_true_of_head {z : List Char} (h : headST z = false) :
    collapseSpacesAux true z = collapseSpacesAux false z := by
  cases z with
  | nil => rfl
  | cons x xs =>
    have hx : isST x = false := h
    rw [cspAux_keep hx, cspAux_keep hx]

theorem cspAux_id : ∀ z : List Char, '\t' ∉ z → noAdjSTB z = true →
    collapseSpacesAux false z = z := by
  intro z
  induction z with
  | nil =>
    intro _ _
    rfl
  | cons x xs ih =>
    intro htab hadj
    have htabxs : '\t' ∉ xs := fun hm => htab (List.mem_cons_of_mem x hm)
    by_cases hst : isST x = true
    · have hx : x = ' ' := by
        have hst2 := hst
        simp only [isST, Bool.or_eq_true, decide_eq_true_eq] at hst2
        rcases hst2 with h | h
        · exact h
        · subst h
          exact absurd (List.mem_cons_self _ _) htab
      rw [cspAux_st_emit hst, cspAux_true_of_head (noAdjSTB_pair hadj hst),
        ih htabxs (noAdjSTB_tail hadj), hx]
    · have hst' : isST x = false := by simpa using hst
      rw [cspAux_keep hst', ih htabxs (noAdjSTB_tail hadj)]

/-! ### Normalization: the blank-line collapsing pass -/

theorem isST_isWS {c : Char} (h : isST c = true) : isWS c = true := by
  simp only [isST, Bool.or_eq_true, decide_eq_true_eq] at h
  rcases h with h | h <;> subst h <;> decide

theorem nlGuard_false_of_ne {c : Char} {cs : List Char} (h : c ≠ '\n') :
    nlGuard (c :: cs) = false := by
  simp [nlGuard, h]

theorem nlGuard_count {c : Char} {cs : List Char} (h : nlGuard (c :: cs) = false)
    (hc : c = '\n') : ((c :: cs).takeWhile isWS).count '\n' ≤ 2 := by
  subst hc
  simp only [nlGuard, decide_True, Bool.true_and, decide_eq_false_iff_not, not_le] at h
  omega

theorem takeWhile_append_all {p : Char → Bool} :
    ∀ a b : List Char, (∀ x ∈ a, p x = true) → (a ++ b).takeWhile p = a ++ b.takeWhile p := by
  intro a
  induction a with
  | nil =>
    intro b _
    rfl
  | cons x xs ih =>
    intro b hall
    have hx : p x = true := hall x (List.mem_cons_self x xs)
    simp only [List.cons_append, List.takeWhile_cons, hx, if_true]
    rw [ih b (fun y hy => hall y (List.mem_cons_of_mem x hy))]

theorem takeWhile_nil_of_headWSB {w : List Char} (h : headWSB w = false) :
    w.takeWhile isWS = [] := by
  cases w with
  | nil => rfl
  | cons c cs =>
    have hc : isWS c = false := h
    simp [List.takeWhile_cons, hc]

theorem dropWhile_headWS (z : List Char) : headWSB (z.dropWhile isWS) = false := by
  induction z with
  | nil => rfl
  | cons c cs ih =>
    by_cases hc : isWS c = true
    · simpa [List.dropWhile_cons, hc] using ih
    · have hc' : isWS c = false := by simpa using hc
      rw [List.dropWhile_cons, if_neg (by simp [hc'])]
      exact hc'

theorem afterLastNL_no_nl {r : List Char} : '\n' ∉ afterLastNL r := by
  intro hmem
  unfold afterLastNL at hmem
  rw [List.mem_reverse] at hmem
  have := List.mem_takeWhile_imp hmem
  simp at this

theorem suffix_cons_cases {w : List Char} {a : Char} {X : List Char} (h : w <:+ a :: X) :
    w = a :: X ∨ w <:+ X := by
  obtain ⟨u, hu⟩ := h
  cases u with
  | nil => exact Or.inl hu
  | cons c u' =>
    right
    injection hu with h1 h2
    exact ⟨u', h2⟩

theorem suffix_append_split {w A B : List Char} (h : w <:+ A ++ B) :
    (∃ A', A' <:+ A ∧ A' ≠ [] ∧ w = A' ++ B) ∨ w <:+ B := by
  induction A with
  | nil => exact Or.inr (by simpa using h)
  | cons a A'' ih =>
    rcases suffix_cons_cases (by simpa using h) with h1 | h1
    · exact Or.inl ⟨a :: A'', List.suffix_refl _, by simp, by simpa using h1⟩
    · rcases ih h1 with ⟨A', hs, hne, rfl⟩ | h2
      · exact Or.inl ⟨A', hs.trans (List.suffix_cons a A''), hne, rfl⟩
      · exact Or.inr h2

theorem cnl_copy : ∀ n, ∀ z : List Char, z.length ≤ n →
    (z.takeWhile isWS).count '\n' ≤ 2 →
    ∃ w, collapseNLs z = z.takeWhile isWS ++ w ∧ headWSB w = false := by
  intro n
  induction n with
  | zero =>
    intro z hz _
    have hznil : z = [] := List.length_eq_zero.mp (Nat.le_zero.mp hz)
    subst hznil
    exact ⟨[], rfl, rfl⟩
  | succ n ih =>
    intro z hz hcount
    cases z with
    | nil => exact ⟨[], rfl, rfl⟩
    | cons c cs =>
      have hcs : cs.length ≤ n := by
        simp only [List.length_cons] at hz
        omega
      by_cases hws : isWS c = true
      · have hguard : nlGuard (c :: cs) = false := by
          unfold nlGuard
          have h3 : ¬ (3 ≤ ((c :: cs).takeWhile isWS).count '\n') := by omega
          simp [h3]
        rw [collapseNLs_keep hguard]
        have htw : (c :: cs).takeWhile isWS = c :: cs.takeWhile isWS := by
          simp [List.takeWhile_cons, hws]
        have hcscount : (cs.takeWhile isWS).count '\n' ≤ 2 := by
          rw [htw, List.count_cons] at hcount
          omega
        obtain ⟨w, hw, hwh⟩ := ih cs hcs hcscount
        exact ⟨w, by rw [hw, htw, List.cons_append], hwh⟩
      · have hws' : isWS c = false := by simpa using hws
        have hcn : c ≠ '\n' := by
          intro hc
          rw [hc] at hws'
          exact absurd hws' (by decide)
        rw [collapseNLs_keep (nlGuard_false_of_ne hcn)]
        have htw : (c :: cs).takeWhile isWS = [] := by
          simp [List.takeWhile_cons, hws']
        exact ⟨c :: collapseNLs cs, by rw [htw, List.nil_append], by simpa [headWSB]⟩

theorem cnl_headWS_reflect : ∀ {z : List Char}, headWSB (collapseNLs z) = true → headWSB z = true := by
  intro z h
  cases z with
  | nil => rw [collapseNLs_nil] at h; exact absurd h (by decide)
  | cons a cs =>
    by_cases hg : nlGuard (a :: cs) = true
    · have ha : a = '\n' := by
        unfold nlGuard at hg
        simp only [Bool.and_eq_true, decide_eq_true_eq] at hg
        exact hg.1
      subst ha
      show isWS '\n' = true
      decide
    · have hg' : nlGuard (a :: cs) = false := by simpa using hg
      rw [collapseNLs_keep hg'] at h
      exact h

theorem cnl_headST_reflect : ∀ {z : List Char}, headST (collapseNLs z) = true → headST z = true := by
  intro z h
  cases z with
  | nil => rw [collapseNLs_nil] at h; exact absurd h (by decide)
  | cons a cs =>
    by_cases hg : nlGuard (a :: cs) = true
    · rw [collapseNLs_match hg] at h
      have h2 : isST '\n' = true := h
      exact absurd h2 (by decide)
    · have hg' : nlGuard (a :: cs) = false := by simpa using hg
      rw [collapseNLs_keep hg'] at h
      exact h

theorem afterLastNL_suffix (r : List Char) : afterLastNL r <:+ r := by
  have hpre : r.reverse.takeWhile (fun c => !(c = '\n' : Bool)) <+: r.reverse :=
    List.takeWhile_prefix _
  obtain ⟨t, ht⟩ := hpre
  exact ⟨t.reverse, by
    show t.reverse ++ afterLastNL r = r
    unfold afterLastNL
    rw [← List.reverse_append, ht, List.reverse_reverse]⟩

theorem cnl_chars : ∀ n, ∀ z : List Char, z.length ≤ n →
    ∀ c ∈ collapseNLs z, c ∈ z ∨ c = '\n' := by
  intro n
  induction n with
  | zero =>
    intro z hz c hc
    have hznil : z = [] := List.length_eq_zero.mp (Nat.le_zero.mp hz)
    subst hznil
    rw [collapseNLs_nil] at hc
    exact absurd hc (List.not_mem_nil c)
  | succ n ih =>
    intro z hz c hc
    cases z with
    | nil =>
      rw [collapseNLs_nil] at hc
      exact absurd hc (List.not_mem_nil c)
    | cons a cs =>
      have hcs : cs.length ≤ n := by
        simp only [List.length_cons] at hz
        omega
      by_cases hg : nlGuard (a :: cs) = true
      · have ha : a = '\n' := by
          unfold nlGuard at hg
          simp only [Bool.and_eq_true, decide_eq_true_eq] at hg
          exact hg.1
        have haWS : isWS a = true := by rw [ha]; decide
        have hdlen : ((a :: cs).dropWhile isWS).length ≤ n := by
          rw [List.dropWhile_cons, if_pos haWS]
          exact le_trans (List.dropWhile_suffix isWS).length_le hcs
        rw [collapseNLs_match hg] at hc
        simp only [List.mem_cons, List.mem_append] at hc
        rcases hc with rfl | rfl | hc | hc
        · exact Or.inr rfl
        · exact Or.inr rfl
        · left
          have h1 : c ∈ (a :: cs).takeWhile isWS := mem_afterLastNL hc
          exact (List.takeWhile_sublist _).subset h1
        · rcases ih _ hdlen c hc with h1 | h1
          · exact Or.inl ((List.dropWhile_suffix isWS).subset h1)
          · exact Or.inr h1
      · have hg' : nlGuard (a :: cs) = false := by simpa using hg
        rw [collapseNLs_keep hg'] at hc
        rcases List.mem_cons.mp hc with rfl | hc
        · exact Or.inl (List.mem_cons_self _ _)
        · rcases ih cs hcs c hc with h1 | h1
          · exact Or.inl (List.mem_cons_of_mem a h1)
          · exact Or.inr h1

theorem count_take_nl_pre {R w : List Char} (hRall : ∀ x ∈ R, isWS x = true)
    (hRnl : '\n' ∉ R) (hout : w.takeWhile isWS = []) :
    ((R ++ w).takeWhile isWS).count '\n' = 0 := by
  rw [takeWhile_append_all R w hRall, hout, List.append_nil]
  exact List.count_eq_zero.mpr hRnl

theorem cnl_nomatch_aux : ∀ n, ∀ z : List Char, z.length ≤ n →
    ∀ w, w <:+ collapseNLs z → nlGuard w = false := by
  intro n
  induction n with
  | zero =>
    intro z hz w hw
    have hznil : z = [] := List.length_eq_zero.mp (Nat.le_zero.mp hz)
    subst hznil
    rw [collapseNLs_nil] at hw
    rw [List.suffix_nil.mp hw]
    rfl
  | succ n ih =>
    intro z hz w hw
    cases z with
    | nil =>
      rw [collapseNLs_nil] at hw
      rw [List.suffix_nil.mp hw]
      rfl
    | cons a cs =>
      have hcs : cs.length ≤ n := by
        simp only [List.length_cons] at hz
        omega
      by_cases hg : nlGuard (a :: cs) = true
      · have ha : a = '\n' := by
          unfold nlGuard at hg
          simp only [Bool.and_eq_true, decide_eq_true_eq] at hg
          exact hg.1
        have haWS : isWS a = true := by rw [ha]; decide
        have hdlen : ((a :: cs).dropWhile isWS).length ≤ n := by
          rw [List.dropWhile_cons, if_pos haWS]
          exact le_trans (List.dropWhile_suffix isWS).length_le hcs
        have hRall : ∀ x ∈ afterLastNL ((a :: cs).takeWhile isWS), isWS x = true :=
          fun x hx => List.mem_takeWhile_imp (mem_afterLastNL hx)
        have hRnl : '\n' ∉ afterLastNL ((a :: cs).takeWhile isWS) := afterLastNL_no_nl
        have houtWS : headWSB (collapseNLs ((a :: cs).dropWhile isWS)) = false := by
          cases hb : headWSB (collapseNLs ((a :: cs).dropWhile isWS)) with
          | false => rfl
          | true =>
            have h1 := cnl_headWS_reflect hb
            rw [dropWhile_headWS] at h1
            exact absurd h1 (by decide)
        have htwOut : (collapseNLs ((a :: cs).dropWhile isWS)).takeWhile isWS = [] :=
          takeWhile_nil_of_headWSB houtWS
        have hcnt0 := count_take_nl_pre hRall hRnl htwOut
        rw [collapseNLs_match hg] at hw
        rcases suffix_cons_cases hw with rfl | hw2
        · unfold nlGuard
          have h6 : (('\n' :: '\n' ::
              (afterLastNL ((a :: cs).takeWhile isWS) ++
                collapseNLs ((a :: cs).dropWhile isWS))).takeWhile isWS).count '\n' = 2 := by
            rw [List.takeWhile_cons, if_pos (show isWS '\n' = true by decide),
              List.takeWhile_cons, if_pos (show isWS '\n' = true by decide),
              takeWhile_append_all _ _ hRall, htwOut, List.append_nil,
              List.count_cons, List.count_cons, List.count_eq_zero.mpr hRnl]
            simp
          have h3 : ¬ (3 ≤ (('\n' :: '\n' ::
              (afterLastNL ((a :: cs).takeWhile isWS) ++
                collapseNLs ((a :: cs).dropWhile isWS))).takeWhile isWS).count '\n') := by
            rw [h6]
            omega
          simp [h3]
        · rcases suffix_cons_cases hw2 with rfl | hw3
          · unfold nlGuard
            have h6 : (('\n' ::
                (afterLastNL ((a :: cs).takeWhile isWS) ++
                  collapseNLs ((a :: cs).dropWhile isWS))).takeWhile isWS).count '\n' = 1 := by
              rw [List.takeWhile_cons, if_pos (show isWS '\n' = true by decide),
                takeWhile_append_all _ _ hRall, htwOut, List.append_nil,
                List.count_cons, List.count_eq_zero.mpr hRnl]
              simp
            have h3 : ¬ (3 ≤ (('\n' ::
                (afterLastNL ((a :: cs).takeWhile isWS) ++
                  collapseNLs ((a :: cs).dropWhile isWS))).takeWhile isWS).count '\n') := by
              rw [h6]
              omega
            simp [h3]
          · rcases suffix_append_split hw3 with ⟨A', hsuf, hne, rfl⟩ | hw4
            · cases A' with
              | nil => exact absurd rfl hne
              | cons a' A'' =>
                have ha' : a' ∈ afterLastNL ((a :: cs).takeWhile isWS) :=
                  hsuf.subset (List.mem_cons_self _ _)
                have hne' : a' ≠ '\n' := fun hh => hRnl (hh ▸ ha')
                rw [List.cons_append]
                exact nlGuard_false_of_ne hne'
            · exact ih _ hdlen w hw4
      · have hg' : nlGuard (a :: cs) = false := by simpa using hg
        rw [collapseNLs_keep hg'] at hw
        rcases suffix_cons_cases hw with rfl | hw2
        · by_cases hanl : a = '\n'
          · subst hanl
            have hcount : (('\n' :: cs).takeWhile isWS).count '\n' ≤ 2 := nlGuard_count hg' rfl
            have hc1 : (cs.takeWhile isWS).count '\n' ≤ 1 := by
              simp [List.takeWhile_cons, (by decide : isWS '\n' = true), List.count_cons]
                at hcount
              omega
            obtain ⟨w', hw', hwh⟩ := cnl_copy n cs hcs (by omega)
            rw [hw']
            have htww' : w'.takeWhile isWS = [] := takeWhile_nil_of_headWSB hwh
            have hall : ∀ x ∈ cs.takeWhile isWS, isWS x = true :=
              fun x hx => List.mem_takeWhile_imp hx
            unfold nlGuard
            have h6 : (('\n' :: (cs.takeWhile isWS ++ w')).takeWhile isWS).count '\n' ≤ 2 := by
              rw [List.takeWhile_cons, if_pos (show isWS '\n' = true by decide),
                takeWhile_append_all _ _ hall, htww', List.append_nil, List.count_cons]
              rw [if_pos (show (('\n' : Char) == '\n') = true by decide)]
              omega
            have h3 : ¬ (3 ≤ (('\n' :: (cs.takeWhile isWS ++ w')).takeWhile isWS).count '\n') := by
              omega
            simp [h3]
          · exact nlGuard_false_of_ne hanl
        · exact ih cs hcs w hw2

theorem cnl_noNLmatch (z : List Char) : noNLmatch (collapseNLs z) :=
  fun w hw => cnl_nomatch_aux z.length z le_rfl w hw

theorem cnl_id_aux : ∀ n, ∀ y : List Char, y.length ≤ n → noNLmatch y → collapseNLs y = y := by
  intro n
  induction n with
  | zero =>
    intro y hy _
    have hynil : y = [] := List.length_eq_zero.mp (Nat.le_zero.mp hy)
    subst hynil
    exact collapseNLs_nil
  | succ n ih =>
    intro y hy hnm
    cases y with
    | nil => exact collapseNLs_nil
    | cons a cs =>
      have hcs : cs.length ≤ n := by
        simp only [List.length_cons] at hy
        omega
      have hg : nlGuard (a :: cs) = false := hnm _ (List.suffix_refl _)
      rw [collapseNLs_keep hg]
      have hcsnm : noNLmatch cs := fun w hw => hnm w (hw.trans (List.suffix_cons a cs))
      rw [ih cs hcs hcsnm]

theorem cnl_id {y : List Char} (h : noNLmatch y) : collapseNLs y = y :=
  cnl_id_aux y.length y le_rfl h

theorem noAdjSTB_of_append_left : ∀ {x y : List Char},
    noAdjSTB (x ++ y) = true → noAdjSTB x = true := by
  intro x
  induction x with
  | nil => intro y _; rfl
  | cons c xs ih =>
    intro y h
    have h' : noAdjSTB (c :: (xs ++ y)) = true := h
    have h1 : noAdjSTB xs = true := ih (noAdjSTB_tail h')
    apply noAdjSTB_cons_of _ h1
    by_cases hc : isST c = true
    · right
      have h2 : headST (xs ++ y) = false := noAdjSTB_pair h' hc
      cases xs with
      | nil => rfl
      | cons d ds => exact h2
    · left
      simpa using hc

theorem noAdjSTB_of_append_right : ∀ {x y : List Char},
    noAdjSTB (x ++ y) = true → noAdjSTB y = true := by
  intro x
  induction x with
  | nil => intro y h; simpa using h
  | cons c xs ih =>
    intro y h
    have h' : noAdjSTB (c :: (xs ++ y)) = true := h
    exact ih (noAdjSTB_tail h')

theorem noAdjSTB_append_of : ∀ {x y : List Char}, noAdjSTB x = true → noAdjSTB y = true →
    headST y = false → noAdjSTB (x ++ y) = true := by
  intro x
  induction x with
  | nil =>
    intro y _ hy _
    simpa using hy
  | cons c xs ih =>
    intro y hx hy hh
    rw [List.cons_append]
    apply noAdjSTB_cons_of _ (ih (noAdjSTB_tail hx) hy hh)
    by_cases hc : isST c = true
    · right
      have hxs : headST xs = false := noAdjSTB_pair hx hc
      cases xs with
      | nil => simpa using hh
      | cons d ds => exact hxs
    · left
      simpa using hc

theorem cnl_noAdj_aux : ∀ n, ∀ z : List Char, z.length ≤ n → noAdjSTB z = true →
    noAdjSTB (collapseNLs z) = true := by
  intro n
  induction n with
  | zero =>
    intro z hz _
    have hznil : z = [] := List.length_eq_zero.mp (Nat.le_zero.mp hz)
    subst hznil
    rfl
  | succ n ih =>
    intro z hz hadj
    cases z with
    | nil => rfl
    | cons a cs =>
      have hcs : cs.length ≤ n := by
        simp only [List.length_cons] at hz
        omega
      by_cases hg : nlGuard (a :: cs) = true
      · have ha : a = '\n' := by
          unfold nlGuard at hg
          simp only [Bool.and_eq_true, decide_eq_true_eq] at hg
          exact hg.1
        have haWS : isWS a = true := by rw [ha]; decide
        have hdlen : ((a :: cs).dropWhile isWS).length ≤ n := by
          rw [List.dropWhile_cons, if_pos haWS]
          exact le_trans (List.dropWhile_suffix isWS).length_le hcs
        have hsplitAdj : noAdjSTB ((a :: cs).takeWhile isWS ++ (a :: cs).dropWhile isWS) = true := by
          rw [List.takeWhile_append_dropWhile]
          exact hadj
        have htwAdj : noAdjSTB ((a :: cs).takeWhile isWS) = true :=
          noAdjSTB_of_append_left hsplitAdj
        have hdwAdj : noAdjSTB ((a :: cs).dropWhile isWS) = true :=
          noAdjSTB_of_append_right hsplitAdj
        have hRAdj : noAdjSTB (afterLastNL ((a :: cs).takeWhile isWS)) = true := by
          obtain ⟨u, hu⟩ := afterLastNL_suffix ((a :: cs).takeWhile isWS)
          exact noAdjSTB_of_append_right (by rw [hu]; exact htwAdj)
        have houtAdj : noAdjSTB (collapseNLs ((a :: cs).dropWhile isWS)) = true :=
          ih _ hdlen hdwAdj
        have hST : headST (collapseNLs ((a :: cs).dropWhile isWS)) = false := by
          cases hb : headST (collapseNLs ((a :: cs).dropWhile isWS)) with
          | false => rfl
          | true =>
            have h1 := cnl_headST_reflect hb
            cases hdw : (a :: cs).dropWhile isWS with
            | nil =>
              rw [hdw] at h1
              exact absurd h1 (by decide)
            | cons d ds =>
              rw [hdw] at h1
              have h2 : isWS d = true := isST_isWS h1
              have h3 := dropWhile_headWS (a :: cs)
              rw [hdw] at h3
              have h4 : isWS d = false := h3
              rw [h2] at h4
              exact absurd h4 (by decide)
        rw [collapseNLs_match hg]
        apply noAdjSTB_cons_of (Or.inl (by decide))
        apply noAdjSTB_cons_of (Or.inl (by decide))
        exact noAdjSTB_append_of hRAdj houtAdj hST
      · have hg' : nlGuard (a :: cs) = false := by simpa using hg
        rw [collapseNLs_keep hg']
        apply noAdjSTB_cons_of _ (ih cs hcs (noAdjSTB_tail hadj))
        by_cases hc : isST a = true
        · right
          have h1 : headST cs = false := noAdjSTB_pair hadj hc
          cases hb : headST (collapseNLs cs) with
          | false => rfl
          | true =>
            have h2 := cnl_headST_reflect hb
            rw [h1] at h2
            exact absurd h2 (by decide)
        · left
          simpa using hc

theorem cnl_noAdj {z : List Char} (h : noAdjSTB z = true) :
    noAdjSTB (collapseNLs z) = true :=
  cnl_noAdj_aux z.length z le_rfl h

/-! ### Normalization: the strip pass and infix preservation -/

theorem headWSB_prefix {w x : List Char} (h : w <+: x) (hx : headWSB x = false) :
    headWSB w = false := by
  cases w with
  | nil => rfl
  | cons r rs =>
    obtain ⟨t, ht⟩ := h
    subst ht
    exact hx

theorem dropWhile_id_of_headWSB {y : List Char} (h : headWSB y = false) :
    y.dropWhile isWS = y := by
  cases y with
  | nil => rfl
  | cons c cs =>
    have hc : isWS c = false := h
    rw [List.dropWhile_cons, if_neg (by simp [hc])]

theorem pyStrip_prefix_drop (s : List Char) : pyStrip s <+: s.dropWhile isWS := by
  unfold pyStrip
  have h1 : (s.dropWhile isWS).reverse.dropWhile isWS <:+ (s.dropWhile isWS).reverse :=
    List.dropWhile_suffix isWS
  obtain ⟨t, ht⟩ := h1
  exact ⟨t.reverse, by rw [← List.reverse_append, ht, List.reverse_reverse]⟩

theorem pyStrip_headWS (s : List Char) : headWSB (pyStrip s) = false :=
  headWSB_prefix (pyStrip_prefix_drop s) (dropWhile_headWS s)

theorem pyStrip_last_headWS (s : List Char) : headWSB (pyStrip s).reverse = false := by
  unfold pyStrip
  rw [List.reverse_reverse]
  exact dropWhile_headWS _

theorem pyStrip_id {y : List Char} (h1 : headWSB y = false)
    (h2 : headWSB y.reverse = false) : pyStrip y = y := by
  unfold pyStrip
  rw [dropWhile_id_of_headWSB h1, dropWhile_id_of_headWSB h2, List.reverse_reverse]

theorem count_takeWhile_append_ge {p : Char → Bool} {a : Char} :
    ∀ x v : List Char, (x.takeWhile p).count a ≤ ((x ++ v).takeWhile p).count a := by
  intro x
  induction x with
  | nil =>
    intro v
    simp
  | cons c cs ih =>
    intro v
    by_cases hc : p c = true
    · rw [List.cons_append, List.takeWhile_cons, if_pos hc, List.takeWhile_cons, if_pos hc,
        List.count_cons, List.count_cons]
      have := ih v
      omega
    · rw [List.cons_append, List.takeWhile_cons, if_neg hc, List.takeWhile_cons, if_neg hc]

theorem nlGuard_append {w : List Char} (v : List Char) (h : nlGuard w = true) :
    nlGuard (w ++ v) = true := by
  cases w with
  | nil => exact absurd h (by decide)
  | cons c cs =>
    unfold nlGuard at h
    simp only [Bool.and_eq_true, decide_eq_true_eq] at h
    obtain ⟨hc, hcount⟩ := h
    have hge : ((c :: cs).takeWhile isWS).count '\n' ≤
        (((c :: cs) ++ v).takeWhile isWS).count '\n' :=
      count_takeWhile_append_ge (c :: cs) v
    show nlGuard (c :: (cs ++ v)) = true
    unfold nlGuard
    simp only [Bool.and_eq_true, decide_eq_true_eq]
    exact ⟨hc, by
      have : (3 : Nat) ≤ ((c :: cs ++ v).takeWhile isWS).count '\n' := le_trans hcount hge
      simpa using this⟩

theorem noNLmatch_infix {y u p v : List Char} (hnm : noNLmatch y)
    (hy : y = u ++ (p ++ v)) : noNLmatch p := by
  intro w hw
  obtain ⟨t, ht⟩ := hw
  cases hb : nlGuard w with
  | false => rfl
  | true =>
    have hsfx : w ++ v <:+ y := by
      refine ⟨u ++ t, ?_⟩
      rw [hy, ← ht]
      simp
    have := hnm (w ++ v) hsfx
    rw [nlGuard_append v hb] at this
    exact absurd this (by decide)

theorem noAdjSTB_infix {y u p v : List Char} (hadj : noAdjSTB y = true)
    (hy : y = u ++ (p ++ v)) : noAdjSTB p = true := by
  subst hy
  exact noAdjSTB_of_append_left (noAdjSTB_of_append_right hadj)

theorem mem_pyStrip {s : List Char} {c : Char} (h : c ∈ pyStrip s) : c ∈ s := by
  obtain ⟨u, w, hw⟩ := pyStrip_parts s
  rw [hw]
  simp only [List.mem_append]
  exact Or.inr (Or.inl h)

theorem pyStrip_noNLmatch {y : List Char} (h : noNLmatch y) : noNLmatch (pyStrip y) := by
  obtain ⟨u, w, hw⟩ := pyStrip_parts y
  exact noNLmatch_infix h hw

theorem pyStrip_noAdj {y : List Char} (h : noAdjSTB y = true) :
    noAdjSTB (pyStrip y) = true := by
  obtain ⟨u, w, hw⟩ := pyStrip_parts y
  exact noAdjSTB_infix h hw

/-! ### Normalization: split and join structure -/

theorem splitNL_nl_cons (cs : List Char) : splitNL ('\n' :: cs) = [] :: splitNL cs := by
  conv_lhs => unfold splitNL
  rw [if_pos rfl]

theorem splitNL_other_cons {c : Char} (hc : ¬ c = '\n') (cs : List Char) :
    splitNL (c :: cs) =
      match splitNL cs with
      | [] => [[c]]
      | l :: ls => (c :: l) :: ls := by
  conv_lhs => unfold splitNL
  rw [if_neg hc]

theorem splitNL_nl_free : ∀ l : List Char, '\n' ∉ l → splitNL l = [l] := by
  intro l
  induction l with
  | nil => intro _; rfl
  | cons c cs ih =>
    intro h
    have hc : ¬ (c = '\n') := fun hh => h (hh ▸ List.mem_cons_self c cs)
    have hcs : '\n' ∉ cs := fun hm => h (List.mem_cons_of_mem c hm)
    rw [splitNL_other_cons hc, ih hcs]

theorem splitNL_cons_nl : ∀ l0 t' : List Char, '\n' ∉ l0 →
    splitNL (l0 ++ '\n' :: t') = l0 :: splitNL t' := by
  intro l0
  induction l0 with
  | nil =>
    intro t' _
    exact splitNL_nl_cons t'
  | cons c cs ih =>
    intro t' h
    have hc : ¬ (c = '\n') := fun hh => h (hh ▸ List.mem_cons_self c cs)
    have hcs : '\n' ∉ cs := fun hm => h (List.mem_cons_of_mem c hm)
    show splitNL (c :: (cs ++ '\n' :: t')) = (c :: cs) :: splitNL t'
    rw [splitNL_other_cons hc, ih t' hcs]

theorem joinNL_cons_ne {l : List Char} {ls : List (List Char)} (h : ls ≠ []) :
    joinNL (l :: ls) = l ++ '\n' :: joinNL ls := by
  cases ls with
  | nil => exact absurd rfl h
  | cons m ms => rfl

theorem splitNL_joinNL : ∀ M : List (List Char), M ≠ [] → (∀ l ∈ M, '\n' ∉ l) →
    splitNL (joinNL M) = M := by
  intro M
  induction M with
  | nil => intro h _; exact absurd rfl h
  | cons l ls ih =>
    intro _ hall
    cases ls with
    | nil =>
      show splitNL (joinNL [l]) = [l]
      exact splitNL_nl_free l (hall l (List.mem_cons_self _ _))
    | cons m ms =>
      rw [joinNL_cons_ne (by simp), splitNL_cons_nl l _ (hall l (List.mem_cons_self _ _)),
        ih (by simp) (fun x hx => hall x (List.mem_cons_of_mem l hx))]

theorem splitNL_lines_nl_free : ∀ t : List Char, ∀ l ∈ splitNL t, '\n' ∉ l := by
  intro t
  induction t with
  | nil =>
    intro l hl
    rw [show splitNL [] = [[]] from rfl] at hl
    rcases List.mem_singleton.mp hl with rfl
    exact List.not_mem_nil _
  | cons c cs ih =>
    intro l hl
    by_cases hc : c = '\n'
    · subst hc
      rw [splitNL_nl_cons] at hl
      rcases List.mem_cons.mp hl with rfl | hl
      · exact List.not_mem_nil _
      · exact ih l hl
    · rw [splitNL_other_cons hc] at hl
      cases hsp : splitNL cs with
      | nil => exact absurd hsp (splitNL_ne_nil cs)
      | cons h0 hs =>
        rw [hsp] at hl
        rcases List.mem_cons.mp hl with rfl | hl
        · intro hmem
          rcases List.mem_cons.mp hmem with hh | hh
          · exact hc hh.symm
          · exact ih h0 (hsp ▸ List.mem_cons_self h0 hs) hh
        · exact ih l (hsp ▸ List.mem_cons_of_mem h0 hl)

theorem joinNL_append : ∀ X Y : List (List Char), X ≠ [] → Y ≠ [] →
    joinNL (X ++ Y) = joinNL X ++ '\n' :: joinNL Y := by
  intro X
  induction X with
  | nil => intro Y h _; exact absurd rfl h
  | cons l ls ih =>
    intro Y _ hY
    cases ls with
    | nil =>
      cases Y with
      | nil => exact absurd rfl hY
      | cons m ms => rfl
    | cons m ms =>
      rw [List.cons_append, joinNL_cons_ne (show (m :: ms) ++ Y ≠ [] by simp),
        ih Y (by simp) hY, joinNL_cons_ne (show m :: ms ≠ ([] : List (List Char)) by simp)]
      simp [List.append_assoc]

theorem noNLmatch_of_nl_free {p : List Char} (h : '\n' ∉ p) : noNLmatch p := by
  intro w hw
  cases w with
  | nil => rfl
  | cons c cs =>
    have hc : c ≠ '\n' := by
      intro hh
      exact h (hw.subset (hh ▸ List.mem_cons_self c cs))
    exact nlGuard_false_of_ne hc

theorem dropWhile_nil_iff_all {l : List Char} :
    l.dropWhile isWS = [] ↔ ∀ c ∈ l, isWS c = true := by
  induction l with
  | nil => simp
  | cons c cs ih =>
    by_cases hc : isWS c = true
    · rw [List.dropWhile_cons, if_pos hc]
      constructor
      · intro h x hx
        rcases List.mem_cons.mp hx with rfl | hx
        · exact hc
        · exact ih.mp h x hx
      · intro h
        exact ih.mpr (fun x hx => h x (List.mem_cons_of_mem c hx))
    · rw [List.dropWhile_cons, if_neg (by simpa using hc)]
      constructor
      · intro h
        exact absurd h (by simp)
      · intro h
        exact absurd (h c (List.mem_cons_self c cs)) hc

theorem pyStrip_nil_iff {l : List Char} :
    pyStrip l = [] ↔ ∀ c ∈ l, isWS c = true := by
  unfold pyStrip
  constructor
  · intro h
    have h1 : (l.dropWhile isWS).reverse.dropWhile isWS = [] := by
      have := congrArg List.reverse h
      rwa [List.reverse_reverse, List.reverse_nil] at this
    have h2 : ∀ c ∈ (l.dropWhile isWS).reverse, isWS c = true :=
      dropWhile_nil_iff_all.mp h1
    have h3 : l.dropWhile isWS = [] := by
      cases hd : l.dropWhile isWS with
      | nil => rfl
      | cons d ds =>
        have hdWS : isWS d = true := by
          apply h2
          rw [hd, List.mem_reverse]
          exact List.mem_cons_self d ds
        have := dropWhile_headWS l
        rw [hd] at this
        have hdWS' : isWS d = false := this
        rw [hdWS] at hdWS'
        exact absurd hdWS' (by decide)
    exact dropWhile_nil_iff_all.mp h3
  · intro h
    have h3 : l.dropWhile isWS = [] := dropWhile_nil_iff_all.mpr h
    rw [h3]
    rfl

theorem headWSB_of_allWS {l : List Char} (hne : l ≠ []) (h : ∀ c ∈ l, isWS c = true) :
    headWSB l = true := by
  cases l with
  | nil => exact absurd rfl hne
  | cons c cs => exact h c (List.mem_cons_self c cs)

/-! ### Normalization: blank lines after splitting -/

theorem lineBlank_iff {l : List Char} :
    lineBlank l = true ↔ ∀ c ∈ l, isWS c = true := by
  unfold lineBlank
  rw [List.isEmpty_iff]
  exact pyStrip_nil_iff

theorem noAdjBlankL_tail {l : List Char} {ls : List (List Char)}
    (h : noAdjBlankL (l :: ls) = true) : noAdjBlankL ls = true := by
  cases ls with
  | nil => rfl
  | cons m ms =>
    have h2 : (!(lineBlank l && lineBlank m) && noAdjBlankL (m :: ms)) = true := h
    simp only [Bool.and_eq_true] at h2
    exact h2.2

theorem noAdjBlankL_pair {a b : List Char} {r : List (List Char)}
    (h : noAdjBlankL (a :: b :: r) = true) (ha : lineBlank a = true) :
    lineBlank b = false := by
  have h2 : (!(lineBlank a && lineBlank b) && noAdjBlankL (b :: r)) = true := h
  simp only [Bool.and_eq_true, Bool.not_eq_true', Bool.and_eq_false_iff] at h2
  rcases h2.1 with h3 | h3
  · rw [ha] at h3
    exact absurd h3 (by decide)
  · exact h3

theorem noAdjBlankL_false_witness : ∀ L : List (List Char), noAdjBlankL L = false →
    ∃ X a b Y, L = X ++ a :: b :: Y ∧ lineBlank a = true ∧ lineBlank b = true := by
  intro L
  induction L with
  | nil =>
    intro h
    rw [show noAdjBlankL [] = true from rfl] at h
    exact absurd h (by decide)
  | cons l ls ih =>
    intro h
    cases ls with
    | nil =>
      rw [show noAdjBlankL [l] = true from rfl] at h
      exact absurd h (by decide)
    | cons m ms =>
      have h2 : (!(lineBlank l && lineBlank m) && noAdjBlankL (m :: ms)) = false := h
      rcases Bool.and_eq_false_iff.mp h2 with h3 | h3
      · rw [Bool.not_eq_false'] at h3
        simp only [Bool.and_eq_true] at h3
        exact ⟨[], l, m, ms, rfl, h3.1, h3.2⟩
      · obtain ⟨X, a, b, Y, hEq, ha, hb⟩ := ih h3
        exact ⟨l :: X, a, b, Y, by rw [hEq]; rfl, ha, hb⟩

theorem adjBlank_match {X Y : List (List Char)} {a b : List Char}
    (hX : X ≠ []) (hY : Y ≠ []) (hna : '\n' ∉ a) (hnb : '\n' ∉ b)
    (hwa : ∀ c ∈ a, isWS c = true) (hwb : ∀ c ∈ b, isWS c = true)
    (hnm : noNLmatch (joinNL (X ++ a :: b :: Y))) : False := by
  have hJ : joinNL (X ++ a :: b :: Y) =
      joinNL X ++ '\n' :: (a ++ '\n' :: (b ++ '\n' :: joinNL Y)) := by
    rw [joinNL_append X _ hX (by simp), joinNL_cons_ne (by simp),
      joinNL_cons_ne hY]
  have hsfx : '\n' :: (a ++ '\n' :: (b ++ '\n' :: joinNL Y)) <:+ joinNL (X ++ a :: b :: Y) :=
    ⟨joinNL X, hJ.symm⟩
  have hguard := hnm _ hsfx
  have hsplit : '\n' :: (a ++ '\n' :: (b ++ '\n' :: joinNL Y)) =
      ('\n' :: (a ++ '\n' :: (b ++ ['\n']))) ++ joinNL Y := by
    simp
  have hallWS : ∀ c ∈ ('\n' :: (a ++ '\n' :: (b ++ ['\n']))), isWS c = true := by
    intro c hc
    simp only [List.mem_cons, List.mem_append, List.mem_singleton] at hc
    rcases hc with rfl | hc | rfl | hc | rfl | hc
    · decide
    · exact hwa c hc
    · decide
    · exact hwb c hc
    · decide
    · exact absurd hc (List.not_mem_nil c)
  have hcnt : (('\n' :: (a ++ '\n' :: (b ++ ['\n']))).count '\n') = 3 := by
    simp [List.count_cons, List.count_append, List.count_eq_zero.mpr hna,
      List.count_eq_zero.mpr hnb]
  have htk : (('\n' :: (a ++ '\n' :: (b ++ '\n' :: joinNL Y))).takeWhile isWS).count '\n' =
      3 + ((joinNL Y).takeWhile isWS).count '\n' := by
    rw [hsplit, takeWhile_append_all _ _ hallWS, List.count_append, hcnt]
  have hg : nlGuard ('\n' :: (a ++ '\n' :: (b ++ '\n' :: joinNL Y))) = true := by
    show (('\n' : Char) = '\n' &&
      3 ≤ (('\n' :: (a ++ '\n' :: (b ++ '\n' :: joinNL Y))).takeWhile isWS).count '\n') = true
    rw [htk]
    simp
  rw [hguard] at hg
  exact absurd hg (by decide)

theorem blank_first_split {t : List Char} {l0 : List Char} {rest : List (List Char)}
    (hsp : splitNL t = l0 :: rest) (ht : t ≠ []) (hh : headWSB t = false) :
    lineBlank l0 = false := by
  cases hb : lineBlank l0 with
  | false => rfl
  | true =>
    exfalso
    have hjoin : t = joinNL (l0 :: rest) := by rw [← hsp, joinNL_splitNL]
    have hWS : ∀ c ∈ l0, isWS c = true := lineBlank_iff.mp hb
    cases l0 with
    | nil =>
      cases rest with
      | nil =>
        rw [hjoin] at ht
        exact ht rfl
      | cons m ms =>
        rw [hjoin, joinNL_cons_ne (by simp)] at hh
        have hh' : isWS '\n' = false := hh
        exact absurd hh' (by decide)
    | cons c l0' =>
      have hc : isWS c = true := hWS c (List.mem_cons_self _ _)
      cases rest with
      | nil =>
        rw [hjoin] at hh
        have hh' : isWS c = false := hh
        rw [hc] at hh'
        exact absurd hh' (by decide)
      | cons m ms =>
        rw [hjoin, joinNL_cons_ne (by simp)] at hh
        have hh' : isWS c = false := hh
        rw [hc] at hh'
        exact absurd hh' (by decide)

theorem blank_last_split {t : List Char} {X : List (List Char)} {llast : List Char}
    (hsp : splitNL t = X ++ [llast]) (ht : t ≠ []) (hh : headWSB t.reverse = false) :
    lineBlank llast = false := by
  cases hb : lineBlank llast with
  | false => rfl
  | true =>
    exfalso
    have hjoin : t = joinNL (X ++ [llast]) := by rw [← hsp, joinNL_splitNL]
    have hWS : ∀ c ∈ llast, isWS c = true := lineBlank_iff.mp hb
    cases X with
    | nil =>
      have hj : t = llast := hjoin
      rw [hj] at hh ht
      cases hl : llast with
      | nil => exact ht hl
      | cons c l' =>
        rw [hl] at hh hWS
        have hrev : (c :: l').reverse ≠ [] := by simp
        have hws := headWSB_of_allWS hrev (fun x hx => hWS x (by
          rw [← List.mem_reverse]
          exact hx))
        rw [hws] at hh
        exact absurd hh (by decide)
    | cons x xs =>
      have hjoin2 : t = joinNL (x :: xs) ++ '\n' :: llast := by
        rw [hjoin, joinNL_append (x :: xs) [llast] (by simp) (by simp)]
        rfl
      have hrev : t.reverse = llast.reverse ++ '\n' :: (joinNL (x :: xs)).reverse := by
        rw [hjoin2]
        simp
      rw [hrev] at hh
      cases hl : llast with
      | nil =>
        rw [hl] at hh
        have hh' : isWS '\n' = false := hh
        exact absurd hh' (by decide)
      | cons c l' =>
        rw [hl] at hh hWS
        cases hr : (c :: l').reverse with
        | nil => simp at hr
        | cons d ds =>
          rw [hr] at hh
          have hd : isWS d = true := hWS d (by
            rw [← List.mem_reverse, hr]
            exact List.mem_cons_self _ _)
          have hh' : isWS d = false := hh
          rw [hd] at hh'
          exact absurd hh' (by decide)

theorem noAdjBlank_splitNL {t : List Char} (ht : t ≠ []) (hh : headWSB t = false)
    (hhr : headWSB t.reverse = false) (hnm : noNLmatch t) :
    noAdjBlankL (splitNL t) = true := by
  cases hB : noAdjBlankL (splitNL t) with
  | true => rfl
  | false =>
    exfalso
    obtain ⟨X, a, b, Y, hEq, ha, hb⟩ := noAdjBlankL_false_witness _ hB
    have hnlfree := splitNL_lines_nl_free t
    have hna : '\n' ∉ a := hnlfree a (by rw [hEq]; simp)
    have hnb : '\n' ∉ b := hnlfree b (by rw [hEq]; simp)
    have hX : X ≠ [] := by
      intro hXnil
      subst hXnil
      rw [List.nil_append] at hEq
      have := blank_first_split hEq ht hh
      rw [ha] at this
      exact absurd this (by decide)
    have hY : Y ≠ [] := by
      intro hYnil
      subst hYnil
      have hEq' : splitNL t = (X ++ [a]) ++ [b] := by rw [hEq]; simp
      have := blank_last_split hEq' ht hhr
      rw [hb] at this
      exact absurd this (by decide)
    have hjoin : joinNL (X ++ a :: b :: Y) = t := by rw [← hEq, joinNL_splitNL]
    exact adjBlank_match hX hY hna hnb (lineBlank_iff.mp ha) (lineBlank_iff.mp hb)
      (hjoin ▸ hnm)

/-! ### Normalization: the reflow loop and empty lines -/

theorem headNotList_imp_headNB {A : List (List Char)} (h : headNotList A = true) :
    headNB A = true := by
  cases A with
  | nil => exact absurd h (by decide)
  | cons h0 rest =>
    have h2 : (!h0.isEmpty && !(bulletStart h0 || numDotStart h0)) = true := h
    simp only [Bool.and_eq_true] at h2
    exact h2.1

theorem reflowStep_blank {line : List Char} {i : Nat} {acc : List (List Char)}
    (h : (pyStrip line).isEmpty = true) : reflowStep i acc line = [] :: acc := by
  simp [reflowStep, h]

theorem reflowStep_nonblank {line : List Char} {i : Nat} {acc : List (List Char)}
    (h : (pyStrip line).isEmpty = false) :
    reflowStep i acc line = pyStrip line :: acc ∨
      (reflowStep i acc line = pyStrip line :: [] :: acc ∧ headNB acc = true) := by
  simp only [reflowStep, h, Bool.false_eq_true, if_false]
  by_cases g1 : (hashStart (pyStrip line) && !(i == 0) && headNB acc) = true
  · rw [if_pos g1]
    have hnl : headNotList ([] :: acc) = false := by
      simp [headNotList]
    rw [hnl]
    simp only [Bool.and_false, Bool.false_eq_true, if_false]
    right
    refine ⟨by trivial, ?_⟩
    simp only [Bool.and_eq_true] at g1
    exact g1.2
  · rw [if_neg g1]
    by_cases g2 : ((bulletStart (pyStrip line) || numDotStart (pyStrip line)) && !(i == 0)
        && headNotList acc) = true
    · rw [if_pos g2]
      right
      refine ⟨by trivial, ?_⟩
      simp only [Bool.and_eq_true] at g2
      exact headNotList_imp_headNB g2.2
    · rw [if_neg g2]
      left
      rfl

theorem go_noAdjEmpty : ∀ (ls : List (List Char)) (i : Nat) (acc : List (List Char)),
    noAdjBlankL ls = true → noAdjEmptyL acc = true →
    (∀ l, acc.head? = some [] → ls.head? = some l → lineBlank l = false) →
    noAdjEmptyL (reflowGo i acc ls) = true := by
  intro ls
  induction ls with
  | nil =>
    intro i acc _ hE _
    exact hE
  | cons l ls' ih =>
    intro i acc hB hE hI
    show noAdjEmptyL (reflowGo (i + 1) (reflowStep i acc l) ls') = true
    by_cases hb : (pyStrip l).isEmpty = true
    · rw [reflowStep_blank hb]
      apply ih (i + 1) ([] :: acc) (noAdjBlankL_tail hB)
      · cases hacc : acc with
        | nil => rfl
        | cons h0 rest =>
          have hne : h0.isEmpty = false := by
            cases hh0 : h0 with
            | nil =>
              have hbl := hI l (by rw [hacc, hh0]; rfl) rfl
              rw [show lineBlank l = (pyStrip l).isEmpty from rfl, hb] at hbl
              exact absurd hbl (by decide)
            | cons _ _ => rfl
          show (!(([] : List Char).isEmpty && h0.isEmpty) && noAdjEmptyL (h0 :: rest)) = true
          rw [hne]
          simp only [Bool.and_false, Bool.not_false, Bool.true_and]
          rw [hacc] at hE
          exact hE
      · intro l2 _ hl2
        cases ls' with
        | nil => exact absurd hl2 (by simp)
        | cons m ms =>
          have hl : lineBlank l = true := hb
          injection hl2 with hl2eq
          have := noAdjBlankL_pair hB hl
          rwa [hl2eq] at this
    · have hb' : (pyStrip l).isEmpty = false := by simpa using hb
      rcases reflowStep_nonblank hb' with heq | ⟨heq, hNB⟩
      · rw [heq]
        apply ih (i + 1) (pyStrip l :: acc) (noAdjBlankL_tail hB)
        · cases acc with
          | nil => rfl
          | cons h0 rest =>
            show (!((pyStrip l).isEmpty && h0.isEmpty) && noAdjEmptyL (h0 :: rest)) = true
            rw [hb']
            simp only [Bool.false_and, Bool.not_false, Bool.true_and]
            exact hE
        · intro l2 hhd _
          injection hhd with hhd
          rw [hhd] at hb'
          simp at hb'
      · rw [heq]
        apply ih (i + 1) (pyStrip l :: [] :: acc) (noAdjBlankL_tail hB)
        · cases hacc : acc with
          | nil =>
            rw [hacc] at hNB
            exact absurd hNB (by decide)
          | cons h0 rest =>
            rw [hacc] at hNB hE
            have hne : h0.isEmpty = false := by
              cases hh0 : h0 with
              | nil =>
                rw [hh0] at hNB
                have hf : headNB ([] :: rest) = false := rfl
                rw [hf] at hNB
                exact absurd hNB (by decide)
              | cons _ _ => rfl
            show (!((pyStrip l).isEmpty && ([] : List Char).isEmpty) &&
              (!(([] : List Char).isEmpty && h0.isEmpty) && noAdjEmptyL (h0 :: rest))) = true
            rw [hb', hne]
            simp [hE]
        · intro l2 hhd _
          injection hhd with hhd
          rw [hhd] at hb'
          simp at hb'

theorem noAdjEmptyL_iff_chain : ∀ A : List (List Char),
    noAdjEmptyL A = true ↔
      List.Chain' (fun a b : List Char => (!(a.isEmpty && b.isEmpty)) = true) A := by
  intro A
  induction A with
  | nil => simp [noAdjEmptyL]
  | cons h0 rest ih =>
    cases rest with
    | nil => simp [noAdjEmptyL]
    | cons h1 rest' =>
      rw [List.chain'_cons, ← ih]
      show (!(h0.isEmpty && h1.isEmpty) && noAdjEmptyL (h1 :: rest')) = true ↔ _
      rw [Bool.and_eq_true]

theorem noAdjEmptyL_reverse {A : List (List Char)} (h : noAdjEmptyL A = true) :
    noAdjEmptyL A.reverse = true := by
  rw [noAdjEmptyL_iff_chain, List.chain'_reverse]
  have h2 := (noAdjEmptyL_iff_chain A).mp h
  exact h2.imp (fun a b hab => by
    show (!(b.isEmpty && a.isEmpty)) = true
    rwa [Bool.and_comm])

/-! ### Normalization: reflow is a fixed point on its own output -/

theorem headNB_prevNB : ∀ A : List (List Char), headNB A = prevNB A.head? := by
  intro A
  cases A <;> rfl

theorem headNotList_prevNotList : ∀ A : List (List Char),
    headNotList A = prevNotList A.head? := by
  intro A
  cases A <;> rfl

theorem pyStrip_idem (l : List Char) : pyStrip (pyStrip l) = pyStrip l :=
  pyStrip_id (pyStrip_headWS l) (pyStrip_last_headWS l)

theorem lineOK_empty (prev : Option (List Char)) : lineOK prev [] = true := rfl

theorem lineOK_someEmpty {l' : List Char} (h : pyStrip l' = l') :
    lineOK (some []) l' = true := by
  unfold lineOK
  rw [h]
  have e1 : (l' == l') = true := beq_self_eq_true l'
  have e2 : prevNB (some ([] : List Char)) = false := rfl
  have e3 : prevNotList (some ([] : List Char)) = false := rfl
  rw [e1, e2, e3]
  simp

theorem step_okRev {i : Nat} {acc : List (List Char)} {line : List Char}
    (hz : i = 0 → acc = []) (hok : okRevL acc = true) :
    okRevL (reflowStep i acc line) = true := by
  by_cases hb : (pyStrip line).isEmpty = true
  · rw [reflowStep_blank hb]
    show (lineOK acc.head? [] && okRevL acc) = true
    rw [lineOK_empty, hok]
    rfl
  · have hb' : (pyStrip line).isEmpty = false := by simpa using hb
    have hidem : pyStrip (pyStrip line) = pyStrip line := pyStrip_idem line
    simp only [reflowStep, hb', Bool.false_eq_true, if_false]
    by_cases g1 : (hashStart (pyStrip line) && !(i == 0) && headNB acc) = true
    · rw [if_pos g1]
      have hnl : headNotList ([] :: acc) = false := by simp [headNotList]
      rw [hnl]
      simp only [Bool.and_false, Bool.false_eq_true, if_false]
      show (lineOK (some []) (pyStrip line) && (lineOK acc.head? [] && okRevL acc)) = true
      rw [lineOK_someEmpty hidem, lineOK_empty, hok]
      rfl
    · rw [if_neg g1]
      by_cases g2 : ((bulletStart (pyStrip line) || numDotStart (pyStrip line)) && !(i == 0)
          && headNotList acc) = true
      · rw [if_pos g2]
        show (lineOK (some []) (pyStrip line) && (lineOK acc.head? [] && okRevL acc)) = true
        rw [lineOK_someEmpty hidem, lineOK_empty, hok]
        rfl
      · rw [if_neg g2]
        show (lineOK acc.head? (pyStrip line) && okRevL acc) = true
        have g1' : (hashStart (pyStrip line) && !(i == 0) && headNB acc) = false := by
          simpa using g1
        have g2' : ((bulletStart (pyStrip line) || numDotStart (pyStrip line)) && !(i == 0)
            && headNotList acc) = false := by
          simpa using g2
        have e2 : (hashStart (pyStrip line) && prevNB acc.head?) = false := by
          rcases Bool.and_eq_false_iff.mp g1' with h12 | h3
          · rcases Bool.and_eq_false_iff.mp h12 with hh | hh
            · rw [hh, Bool.false_and]
            · have hi : i = 0 := by
                rw [Bool.not_eq_false'] at hh
                simpa using hh
              rw [hz hi]
              show (hashStart (pyStrip line) && prevNB none) = false
              rw [show prevNB none = false from rfl, Bool.and_false]
          · rw [← headNB_prevNB, h3, Bool.and_false]
        have e3 : ((bulletStart (pyStrip line) || numDotStart (pyStrip line))
            && prevNotList acc.head?) = false := by
          rcases Bool.and_eq_false_iff.mp g2' with h12 | h3
          · rcases Bool.and_eq_false_iff.mp h12 with hh | hh
            · rw [hh, Bool.false_and]
            · have hi : i = 0 := by
                rw [Bool.not_eq_false'] at hh
                simpa using hh
              rw [hz hi]
              show (_ && prevNotList none) = false
              rw [show prevNotList none = false from rfl, Bool.and_false]
          · rw [← headNotList_prevNotList, h3, Bool.and_false]
        have hOK : lineOK acc.head? (pyStrip line) = true := by
          unfold lineOK
          rw [hidem, beq_self_eq_true, e2, e3]
          rfl
        rw [hOK, hok]
        rfl

theorem go_okRev : ∀ (ls : List (List Char)) (i : Nat) (acc : List (List Char)),
    (i = 0 → acc = []) → okRevL acc = true → okRevL (reflowGo i acc ls) = true := by
  intro ls
  induction ls with
  | nil =>
    intro i acc _ hok
    exact hok
  | cons l ls' ih =>
    intro i acc hz hok
    exact ih (i + 1) (reflowStep i acc l) (fun h => absurd h (Nat.succ_ne_zero i))
      (step_okRev hz hok)

theorem okL_concat : ∀ (X : List (List Char)) (p : Option (List Char)) (l : List Char),
    okL p (X ++ [l]) = (okL p X && lineOK (X.getLast?.or p) l) := by
  intro X
  induction X with
  | nil =>
    intro p l
    show (lineOK p l && true) = (true && lineOK (Option.or none p) l)
    rw [show Option.or none p = p from rfl, Bool.and_true, Bool.true_and]
  | cons x xs ih =>
    intro p l
    show (lineOK p x && okL (some x) (xs ++ [l])) = _
    rw [ih (some x) l]
    have hl : (x :: xs).getLast?.or p = xs.getLast?.or (some x) := by
      cases xs with
      | nil => rfl
      | cons y ys =>
        rw [List.getLast?_cons_cons]
        cases hg : (y :: ys).getLast? with
        | none =>
          rw [List.getLast?_eq_none_iff] at hg
          exact absurd hg (by simp)
        | some g => rfl
    rw [hl]
    show (lineOK p x && (okL (some x) xs && lineOK (xs.getLast?.or (some x)) l)) =
      ((lineOK p x && okL (some x) xs) && lineOK (xs.getLast?.or (some x)) l)
    rw [Bool.and_assoc]

theorem okRev_to_okL : ∀ A : List (List Char), okRevL A = true → okL none A.reverse = true := by
  intro A
  induction A with
  | nil => intro _; rfl
  | cons l rest ih =>
    intro h
    have h2 : (lineOK rest.head? l && okRevL rest) = true := h
    simp only [Bool.and_eq_true] at h2
    rw [List.reverse_cons, okL_concat, ih h2.2, List.getLast?_reverse]
    have hor : (rest.head?).or none = rest.head? := by
      cases rest.head? <;> rfl
    rw [hor, h2.1]
    rfl

theorem go_copy : ∀ (ls : List (List Char)) (i : Nat) (acc : List (List Char)),
    okL acc.head? ls = true → (i = 0 → acc = []) →
    reflowGo i acc ls = ls.reverse ++ acc := by
  intro ls
  induction ls with
  | nil =>
    intro i acc _ _
    rfl
  | cons l ls' ih =>
    intro i acc hok hz
    have h2 : (lineOK acc.head? l && okL (some l) ls') = true := hok
    simp only [Bool.and_eq_true] at h2
    have hlok := h2.1
    unfold lineOK at hlok
    simp only [Bool.and_eq_true] at hlok
    have hstrip : pyStrip l = l := eq_of_beq hlok.1.1
    have hhash : (hashStart l && prevNB acc.head?) = false := by
      have := hlok.1.2
      rwa [Bool.not_eq_true'] at this
    have hlist : ((bulletStart l || numDotStart l) && prevNotList acc.head?) = false := by
      have := hlok.2
      rwa [Bool.not_eq_true'] at this
    have hstep : reflowStep i acc l = l :: acc := by
      by_cases hb : (pyStrip l).isEmpty = true
      · have hl : l = [] := by
          rw [hstrip] at hb
          exact List.isEmpty_iff.mp hb
        rw [reflowStep_blank hb, hl]
      · have hb' : (pyStrip l).isEmpty = false := by simpa using hb
        have hbl : l.isEmpty = false := by
          rw [← hstrip]
          exact hb'
        have g1 : (hashStart l && !(i == 0) && headNB acc) = false := by
          by_cases hi : i = 0
          · rw [hz hi, show headNB ([] : List (List Char)) = false from rfl, Bool.and_false]
          · rw [headNB_prevNB]
            rcases Bool.and_eq_false_iff.mp hhash with hh | hh
            · rw [hh, Bool.false_and, Bool.false_and]
            · rw [hh, Bool.and_false]
        have g2 : ((bulletStart l || numDotStart l) && !(i == 0)
            && headNotList acc) = false := by
          by_cases hi : i = 0
          · rw [hz hi, show headNotList ([] : List (List Char)) = false from rfl,
              Bool.and_false]
          · rw [headNotList_prevNotList]
            rcases Bool.and_eq_false_iff.mp hlist with hh | hh
            · rw [hh, Bool.false_and, Bool.false_and]
            · rw [hh, Bool.and_false]
        simp only [reflowStep, hstrip, hbl, Bool.false_eq_true, if_false, g1, g2]
    show reflowGo (i + 1) (reflowStep i acc l) ls' = (l :: ls').reverse ++ acc
    rw [hstep, ih (i + 1) (l :: acc) h2.2 (fun h => absurd h (Nat.succ_ne_zero i))]
    simp

theorem reflowAll_of_okL {M : List (List Char)} (h : okL none M = true) :
    reflowAll M = M := by
  unfold reflowAll
  rw [go_copy M 0 [] h (fun _ => rfl)]
  simp

theorem reflowAll_okL (L : List (List Char)) : okL none (reflowAll L) = true := by
  unfold reflowAll
  exact okRev_to_okL _ (go_okRev L 0 [] (fun _ => rfl) rfl)

/-! ### Normalization: joining the reflowed lines -/

theorem noAdjEmptyL_tail {l : List Char} {ls : List (List Char)}
    (h : noAdjEmptyL (l :: ls) = true) : noAdjEmptyL ls = true := by
  cases ls with
  | nil => rfl
  | cons m ms =>
    have h2 : (!(l.isEmpty && m.isEmpty) && noAdjEmptyL (m :: ms)) = true := h
    simp only [Bool.and_eq_true] at h2
    exact h2.2

theorem noAdjEmptyL_pair {a b : List Char} {r : List (List Char)}
    (h : noAdjEmptyL (a :: b :: r) = true) (ha : a.isEmpty = true) : b.isEmpty = false := by
  have h2 : (!(a.isEmpty && b.isEmpty) && noAdjEmptyL (b :: r)) = true := h
  simp only [Bool.and_eq_true, Bool.not_eq_true', Bool.and_eq_false_iff] at h2
  rcases h2.1 with h3 | h3
  · rw [ha] at h3
    exact absurd h3 (by decide)
  · exact h3

theorem mem_joinNL : ∀ (M : List (List Char)) (c : Char), c ∈ joinNL M →
    (∃ l ∈ M, c ∈ l) ∨ c = '\n' := by
  intro M
  induction M with
  | nil =>
    intro c hc
    exact absurd hc (List.not_mem_nil c)
  | cons l ls ih =>
    intro c hc
    cases ls with
    | nil => exact Or.inl ⟨l, List.mem_cons_self _ _, hc⟩
    | cons m ms =>
      rw [joinNL_cons_ne (by simp)] at hc
      simp only [List.mem_append, List.mem_cons] at hc
      rcases hc with hc | rfl | hc
      · exact Or.inl ⟨l, List.mem_cons_self _ _, hc⟩
      · exact Or.inr rfl
      · rcases ih c hc with ⟨l', hl', hcl'⟩ | hc
        · exact Or.inl ⟨l', List.mem_cons_of_mem l hl', hcl'⟩
        · exact Or.inr hc

theorem joinNL_noAdjST : ∀ M : List (List Char), (∀ l ∈ M, noAdjSTB l = true) →
    noAdjSTB (joinNL M) = true := by
  intro M
  induction M with
  | nil => intro _; rfl
  | cons l ls ih =>
    intro h
    cases ls with
    | nil => exact h l (List.mem_cons_self _ _)
    | cons m ms =>
      rw [joinNL_cons_ne (by simp)]
      apply noAdjSTB_append_of (h l (List.mem_cons_self _ _))
      · exact noAdjSTB_cons_of (Or.inl (by decide))
          (ih (fun x hx => h x (List.mem_cons_of_mem l hx)))
      · rfl

theorem joinNL_headWS {M : List (List Char)} {l0 : List Char} (hh : M.head? = some l0)
    (hne : l0 ≠ []) (hws : headWSB l0 = false) : headWSB (joinNL M) = false := by
  cases M with
  | nil => exact absurd hh (by simp)
  | cons x ls =>
    injection hh with hh
    subst hh
    cases ls with
    | nil => exact hws
    | cons m ms =>
      rw [joinNL_cons_ne (by simp)]
      cases x with
      | nil => exact absurd rfl hne
      | cons c x' => exact hws

theorem joinNL_revHeadWS {X : List (List Char)} {llast : List Char}
    (hne : llast ≠ []) (hws : headWSB llast.reverse = false) :
    headWSB (joinNL (X ++ [llast])).reverse = false := by
  cases X with
  | nil =>
    show headWSB (joinNL [llast]).reverse = false
    exact hws
  | cons x xs =>
    have hJ : joinNL ((x :: xs) ++ [llast]) = joinNL (x :: xs) ++ '\n' :: llast := by
      rw [joinNL_append (x :: xs) [llast] (by simp) (by simp)]
      rfl
    rw [hJ]
    have hrev : (joinNL (x :: xs) ++ '\n' :: llast).reverse =
        llast.reverse ++ '\n' :: (joinNL (x :: xs)).reverse := by
      simp
    rw [hrev]
    cases hr : llast.reverse with
    | nil =>
      rw [List.reverse_eq_nil_iff] at hr
      exact absurd hr hne
    | cons d ds =>
      rw [hr] at hws
      exact hws

theorem joinNL_noNL : ∀ M : List (List Char), (∀ l ∈ M, '\n' ∉ l) →
    (∀ l ∈ M, l = [] ∨ headWSB l = false) → noAdjEmptyL M = true →
    noNLmatch (joinNL M) := by
  intro M
  induction M with
  | nil =>
    intro _ _ _ w hw
    rw [List.suffix_nil.mp hw]
    rfl
  | cons l ls ih =>
    intro hnl hst hE
    cases ls with
    | nil => exact noNLmatch_of_nl_free (hnl l (List.mem_cons_self _ _))
    | cons m ms =>
      rw [joinNL_cons_ne (by simp)]
      intro w hw
      rcases suffix_append_split hw with ⟨A', hsuf, hne, rfl⟩ | hw2
      · cases A' with
        | nil => exact absurd rfl hne
        | cons a A'' =>
          have ha : a ∈ l := hsuf.subset (List.mem_cons_self _ _)
          have hanl : a ≠ '\n' := fun hh => hnl l (List.mem_cons_self _ _) (hh ▸ ha)
          rw [List.cons_append]
          exact nlGuard_false_of_ne hanl
      · rcases suffix_cons_cases hw2 with rfl | hw3
        · -- w = '\n' :: joinNL (m :: ms)
          have hcnt : ((('\n' :: joinNL (m :: ms)).takeWhile isWS).count '\n') ≤ 2 := by
            cases hm : m with
            | cons c m' =>
              have hmm : headWSB (c :: m') = false := by
                rcases hst m (List.mem_cons_of_mem l (List.mem_cons_self _ _)) with h1 | h1
                · rw [h1] at hm
                  exact absurd hm (by simp)
                · rwa [hm] at h1
              have hdJ2 : headWSB (joinNL ((c :: m') :: ms)) = false :=
                joinNL_headWS rfl (by simp) hmm
              rw [List.takeWhile_cons, if_pos (show isWS '\n' = true by decide),
                takeWhile_nil_of_headWSB hdJ2]
              simp
            | nil =>
              cases ms with
              | nil => decide
              | cons n ns =>
                have hEtail : noAdjEmptyL (m :: n :: ns) = true := noAdjEmptyL_tail hE
                have hnne : n.isEmpty = false := noAdjEmptyL_pair hEtail (by rw [hm]; rfl)
                have hJeq : joinNL (([] : List Char) :: n :: ns) = '\n' :: joinNL (n :: ns) := by
                  rw [joinNL_cons_ne (by simp)]
                  rfl
                have hdJ3 : headWSB (joinNL (n :: ns)) = false := by
                  have hnn : headWSB n = false := by
                    rcases hst n (by simp) with h1 | h1
                    · rw [h1] at hnne
                      exact absurd hnne (by simp)
                    · exact h1
                  exact joinNL_headWS rfl (by
                    intro hcon
                    rw [hcon] at hnne
                    exact absurd hnne (by simp)) hnn
                rw [hJeq, List.takeWhile_cons, if_pos (show isWS '\n' = true by decide),
                  List.takeWhile_cons, if_pos (show isWS '\n' = true by decide),
                  takeWhile_nil_of_headWSB hdJ3]
                simp
          show nlGuard ('\n' :: joinNL (m :: ms)) = false
          unfold nlGuard
          have h3 : ¬ (3 ≤ (('\n' :: joinNL (m :: ms)).takeWhile isWS).count '\n') := by
            omega
          simp [h3]
        · exact ih (fun x hx => hnl x (List.mem_cons_of_mem l hx))
            (fun x hx => hst x (List.mem_cons_of_mem l hx)) (noAdjEmptyL_tail hE) w hw3

theorem getLast?_cons_of_ne {x : List Char} {A : List (List Char)} (h : A ≠ []) :
    (x :: A).getLast? = A.getLast? := by
  cases A with
  | nil => exact absurd rfl h
  | cons y ys => exact List.getLast?_cons_cons

theorem reflowStep_getLast {i : Nat} {acc : List (List Char)} {line : List Char}
    (h : acc ≠ []) : (reflowStep i acc line).getLast? = acc.getLast? := by
  by_cases hb : (pyStrip line).isEmpty = true
  · rw [reflowStep_blank hb, getLast?_cons_of_ne h]
  · rcases reflowStep_nonblank (by simpa using hb) with heq | ⟨heq, _⟩
    · rw [heq, getLast?_cons_of_ne h]
    · rw [heq, getLast?_cons_of_ne (by simp), getLast?_cons_of_ne h]

theorem reflowStep_ne_nil {i : Nat} {acc : List (List Char)} {line : List Char} :
    reflowStep i acc line ≠ [] := by
  by_cases hb : (pyStrip line).isEmpty = true
  · rw [reflowStep_blank hb]
    simp
  · rcases reflowStep_nonblank (by simpa using hb) with heq | ⟨heq, _⟩ <;> rw [heq] <;> simp

theorem go_getLast : ∀ (ls : List (List Char)) (i : Nat) (acc : List (List Char)),
    acc ≠ [] → (reflowGo i acc ls).getLast? = acc.getLast? := by
  intro ls
  induction ls with
  | nil =>
    intro i acc _
    rfl
  | cons l ls' ih =>
    intro i acc h
    show (reflowGo (i + 1) (reflowStep i acc l) ls').getLast? = acc.getLast?
    rw [ih (i + 1) _ reflowStep_ne_nil, reflowStep_getLast h]

theorem go_head : ∀ (ls : List (List Char)) (i : Nat) (acc : List (List Char))
    (l : List Char), ls.getLast? = some l → (pyStrip l).isEmpty = false →
    (reflowGo i acc ls).head? = some (pyStrip l) := by
  intro ls
  induction ls with
  | nil =>
    intro i acc l h _
    exact absurd h (by simp)
  | cons x ls' ih =>
    intro i acc l h hb
    cases ls' with
    | nil =>
      have hx : x = l := by
        have : (some x : Option (List Char)) = some l := h
        injection this
      subst hx
      show (reflowStep i acc x).head? = some (pyStrip x)
      rcases reflowStep_nonblank hb with heq | ⟨heq, _⟩ <;> rw [heq] <;> rfl
    | cons y ys =>
      rw [List.getLast?_cons_cons] at h
      exact ih (i + 1) (reflowStep i acc x) l h hb

/-! ### Normalization: the full pipeline -/

theorem joinNL_mid_infix : ∀ (X : List (List Char)) (l : List Char) (Y : List (List Char)),
    ∃ A B, joinNL (X ++ l :: Y) = A ++ (l ++ B) := by
  intro X
  induction X with
  | nil =>
    intro l Y
    cases Y with
    | nil =>
      refine ⟨[], [], ?_⟩
      simp
      rfl
    | cons y ys =>
      refine ⟨[], '\n' :: joinNL (y :: ys), ?_⟩
      rw [show (([] : List (List Char)) ++ l :: y :: ys) = l :: y :: ys from rfl,
        joinNL_cons_ne (by simp)]
      rfl
  | cons x xs ih =>
    intro l Y
    obtain ⟨A, B, hAB⟩ := ih l Y
    refine ⟨x ++ '\n' :: A, B, ?_⟩
    rw [List.cons_append, joinNL_cons_ne (by simp), hAB]
    simp

theorem mem_splitNL_infix {t l : List Char} (h : l ∈ splitNL t) :
    ∃ A B, t = A ++ (l ++ B) := by
  obtain ⟨X, Y, hXY⟩ := List.append_of_mem h
  have ht : t = joinNL (X ++ l :: Y) := by rw [← hXY, joinNL_splitNL]
  obtain ⟨A, B, hAB⟩ := joinNL_mid_infix X l Y
  exact ⟨A, B, by rw [ht, hAB]⟩

theorem normTail_props (t : List Char) (hh : headWSB t = false)
    (hr : headWSB t.reverse = false) (hnm : noNLmatch t)
    (hadj : noAdjSTB t = true) (htab : '\t' ∉ t) (hne : t ≠ []) :
    noNLmatch (pyStrip (joinNL (reflowAll (splitNL t)))) ∧
    noAdjSTB (pyStrip (joinNL (reflowAll (splitNL t)))) = true ∧
    '\t' ∉ pyStrip (joinNL (reflowAll (splitNL t))) ∧
    reflowAll (splitNL (pyStrip (joinNL (reflowAll (splitNL t))))) =
      splitNL (pyStrip (joinNL (reflowAll (splitNL t)))) := by
  have hLnl : ∀ l ∈ splitNL t, '\n' ∉ l := splitNL_lines_nl_free t
  have hLinfix : ∀ l ∈ splitNL t, ∃ A B, t = A ++ (l ++ B) :=
    fun l hl => mem_splitNL_infix hl
  have hLadj : ∀ l ∈ splitNL t, noAdjSTB l = true := by
    intro l hl
    obtain ⟨A, B, hAB⟩ := hLinfix l hl
    exact noAdjSTB_infix hadj hAB
  have hLtab : ∀ l ∈ splitNL t, '\t' ∉ l := by
    intro l hl hm
    obtain ⟨A, B, hAB⟩ := hLinfix l hl
    apply htab
    rw [hAB]
    simp only [List.mem_append]
    exact Or.inr (Or.inl hm)
  have hLblank : noAdjBlankL (splitNL t) = true := noAdjBlank_splitNL hne hh hr hnm
  have hMfacts : ∀ y ∈ reflowAll (splitNL t),
      ('\n' ∉ y) ∧ headWSB y = false ∧ noAdjSTB y = true ∧ '\t' ∉ y := by
    intro y hy
    rcases reflowAll_mem hy with rfl | ⟨l, hl, rfl⟩
    · exact ⟨List.not_mem_nil _, rfl, rfl, List.not_mem_nil _⟩
    · exact ⟨fun h => hLnl l hl (mem_pyStrip h), pyStrip_headWS l,
        pyStrip_noAdj (hLadj l hl), fun h => hLtab l hl (mem_pyStrip h)⟩
  have hME : noAdjEmptyL (reflowAll (splitNL t)) = true := by
    unfold reflowAll
    exact noAdjEmptyL_reverse
      (go_noAdjEmpty _ 0 [] hLblank rfl (fun l h1 _ => by simp at h1))
  obtain ⟨l0, rest, hL⟩ : ∃ l0 rest, splitNL t = l0 :: rest := by
    cases h : splitNL t with
    | nil => exact absurd h (splitNL_ne_nil t)
    | cons a b => exact ⟨a, b, rfl⟩
  have hfb : lineBlank l0 = false := blank_first_split hL hne hh
  have hfbne : (pyStrip l0).isEmpty = false := hfb
  obtain ⟨X, llastL, hXL⟩ : ∃ X b, splitNL t = X ++ [b] := by
    rcases List.eq_nil_or_concat (splitNL t) with h | ⟨X, b, hXb⟩
    · exact absurd h (splitNL_ne_nil t)
    · rw [List.concat_eq_append] at hXb
      exact ⟨X, b, hXb⟩
  have hlb : lineBlank llastL = false := blank_last_split hXL hne hr
  have hlbne : (pyStrip llastL).isEmpty = false := hlb
  have hMhead : (reflowAll (splitNL t)).head? = some (pyStrip l0) := by
    unfold reflowAll
    rw [List.head?_reverse, hL]
    show (reflowGo 1 (reflowStep 0 [] l0) rest).getLast? = some (pyStrip l0)
    rw [go_getLast rest 1 _ reflowStep_ne_nil]
    rcases reflowStep_nonblank hfbne with heq | ⟨heq, hNB⟩
    · rw [heq]
      simp
    · have hf : headNB ([] : List (List Char)) = false := rfl
      rw [hf] at hNB
      exact absurd hNB (by decide)
  have hMlast : (reflowAll (splitNL t)).getLast? = some (pyStrip llastL) := by
    unfold reflowAll
    rw [List.getLast?_reverse]
    exact go_head _ 0 [] llastL (by rw [hXL]; exact List.getLast?_concat _) hlbne
  have hMne : reflowAll (splitNL t) ≠ [] := by
    intro h
    rw [h] at hMhead
    exact absurd hMhead (by simp)
  have hjnm : noNLmatch (joinNL (reflowAll (splitNL t))) :=
    joinNL_noNL _ (fun y hy => (hMfacts y hy).1) (fun y hy => Or.inr (hMfacts y hy).2.1) hME
  have hjadj : noAdjSTB (joinNL (reflowAll (splitNL t))) = true :=
    joinNL_noAdjST _ (fun y hy => (hMfacts y hy).2.2.1)
  have hjtab : '\t' ∉ joinNL (reflowAll (splitNL t)) := by
    intro h
    rcases mem_joinNL _ '\t' h with ⟨l, hl, hc⟩ | hc
    · exact (hMfacts l hl).2.2.2 hc
    · exact absurd hc (by decide)
  have hjh : headWSB (joinNL (reflowAll (splitNL t))) = false :=
    joinNL_headWS hMhead (fun h => by rw [h] at hfbne; simp at hfbne) (pyStrip_headWS l0)
  have hjr : headWSB (joinNL (reflowAll (splitNL t))).reverse = false := by
    rcases List.eq_nil_or_concat (reflowAll (splitNL t)) with hM0 | ⟨X', b, hXb⟩
    · exact absurd hM0 hMne
    · rw [List.concat_eq_append] at hXb
      have hbb : b = pyStrip llastL := by
        have h5 := hMlast
        rw [hXb, List.getLast?_concat] at h5
        simpa using h5
      rw [hXb, hbb]
      exact joinNL_revHeadWS (fun h => by rw [h] at hlbne; simp at hlbne)
        (pyStrip_last_headWS llastL)
  have hps : pyStrip (joinNL (reflowAll (splitNL t))) = joinNL (reflowAll (splitNL t)) :=
    pyStrip_id hjh hjr
  have hsplit : splitNL (joinNL (reflowAll (splitNL t))) = reflowAll (splitNL t) :=
    splitNL_joinNL _ hMne (fun y hy => (hMfacts y hy).1)
  have hfix : reflowAll (reflowAll (splitNL t)) = reflowAll (splitNL t) :=
    reflowAll_of_okL (reflowAll_okL _)
  refine ⟨pyStrip_noNLmatch hjnm, pyStrip_noAdj hjadj, fun h => hjtab (mem_pyStrip h), ?_⟩
  rw [hps, hsplit]
  exact hfix

theorem normPipe_props (x : List Char) :
    noNLmatch (normPipe x) ∧ noAdjSTB (normPipe x) = true ∧ '\t' ∉ normPipe x ∧
      IsNormalized (normPipe x) := by
  have ht2adj : noAdjSTB (collapseNLs (collapseSpaces x)) = true :=
    cnl_noAdj (cspAux_noAdj x false)
  have ht2nm : noNLmatch (collapseNLs (collapseSpaces x)) := cnl_noNLmatch _
  have ht2tab : '\t' ∉ collapseNLs (collapseSpaces x) := by
    intro hmem
    rcases cnl_chars (collapseSpaces x).length _ le_rfl _ hmem with h1 | h1
    · rcases cspAux_chars x false '\t' h1 with h2 | ⟨_, h2⟩
      · exact absurd h2 (by decide)
      · exact absurd h2 (by decide)
    · exact absurd h1 (by decide)
  by_cases h3 : pyStrip (collapseNLs (collapseSpaces x)) = []
  · have hnp : normPipe x = [] := by
      unfold normPipe
      rw [h3]
      decide
    rw [hnp]
    exact ⟨fun w hw => by rw [List.suffix_nil.mp hw]; rfl, rfl, List.not_mem_nil _,
      rfl, rfl, rfl, by decide⟩
  · obtain ⟨hnm, hadj, htab, hFP4⟩ := normTail_props _ (pyStrip_headWS _)
      (pyStrip_last_headWS _) (pyStrip_noNLmatch ht2nm) (pyStrip_noAdj ht2adj)
      (fun h => ht2tab (mem_pyStrip h)) h3
    exact ⟨hnm, hadj, htab, cspAux_id _ htab hadj, cnl_id hnm, pyStrip_idem _, hFP4⟩

theorem findCI_none_of_occB {p : List Char} : ∀ s : List Char, occB p s = false →
    findCI p s = none := by
  intro s
  induction s with
  | nil =>
    intro h
    have hcm : ciMatch p [] = false := h
    simp [findCI, hcm]
  | cons c cs ih =>
    intro h
    have h2 : (ciMatch p (c :: cs) || occB p cs) = false := h
    rw [Bool.or_eq_false_iff] at h2
    unfold findCI
    simp [h2.1, ih h2.2]

theorem subPair_id {op cl s : List Char} (h : occB op s = false) : subPair op cl s = s :=
  subPair_none (findCI_none_of_occB s h)

theorem subAlt_id {p q : List Char} (hp : p ≠ []) (hq : q ≠ []) : ∀ s : List Char,
    occB p s = false → occB q s = false → subAlt p q s = s := by
  intro s
  induction s with
  | nil =>
    intro _ _
    exact subAlt_nil
  | cons c cs ih =>
    intro h1 h2
    have h1' : (ciMatch p (c :: cs) || occB p cs) = false := h1
    have h2' : (ciMatch q (c :: cs) || occB q cs) = false := h2
    rw [Bool.or_eq_false_iff] at h1' h2'
    rw [subAlt_keep hp hq h1'.1 h2'.1, ih h1'.2 h2'.2]

theorem stripTags_id {s : List Char} (h : tagFree s = true) : stripTags s = s := by
  have h4 : occB oT s = false ∧ occB cT s = false ∧ occB oTg s = false ∧
      occB cTg s = false := by
    unfold tagFree at h
    simp only [Bool.and_eq_true, Bool.not_eq_true'] at h
    exact ⟨h.1.1.1, h.1.1.2, h.1.2, h.2⟩
  unfold stripTags
  rw [subPair_id h4.1, subPair_id h4.2.2.1, subPair_id h4.1, subPair_id h4.2.2.1,
    subAlt_id (by decide) (by decide) s h4.1 h4.2.1,
    subAlt_id (by decide) (by decide) s h4.2.2.1 h4.2.2.2]

theorem normPipe_id {s : List Char} (h : IsNormalized s) : normPipe s = s := by
  obtain ⟨h1, h2, h3, h4⟩ := h
  unfold normPipe
  rw [h1, h2, h3, h4, joinNL_splitNL, h3]

theorem mem_first_split {a : Char} : ∀ m : List Char, a ∈ m →
    ∃ m1 m2, m = m1 ++ a :: m2 ∧ a ∉ m1 := by
  intro m
  induction m with
  | nil =>
    intro h
    exact absurd h (List.not_mem_nil a)
  | cons c cs ih =>
    intro h
    by_cases hc : c = a
    · exact ⟨[], cs, by rw [hc]; rfl, List.not_mem_nil a⟩
    · rcases List.mem_cons.mp h with h1 | h1
      · exact absurd h1.symm hc
      · obtain ⟨m1, m2, hm, hnm⟩ := ih h1
        refine ⟨c :: m1, m2, by rw [List.cons_append, hm], ?_⟩
        intro hmem
        rcases List.mem_cons.mp hmem with h2 | h2
        · exact hc h2.symm
        · exact hnm h2

theorem clean_noNLmatch (s : List Char) : noNLmatch (clean_reasoning_output s) := by
  by_cases hs : s = []
  · subst hs
    intro w hw
    rw [List.suffix_nil.mp hw]
    rfl
  · rw [clean_eq_pipe hs]
    exact (normPipe_props (stripTags s)).1

theorem clean_noAdj_tab (s : List Char) :
    noAdjSTB (clean_reasoning_output s) = true ∧ '\t' ∉ clean_reasoning_output s := by
  by_cases hs : s = []
  · subst hs
    exact ⟨rfl, List.not_mem_nil _⟩
  · rw [clean_eq_pipe hs]
    obtain ⟨_, hadj, htab, _⟩ := normPipe_props (stripTags s)
    exact ⟨hadj, htab⟩

/-- **C2.** For every input, the output of `clean_reasoning_output` never
contains three or more newlines inside one whitespace run: every segment of
the output consisting only of whitespace holds at most two newline
characters, so at most one blank line survives and no three consecutive
newlines can occur. -/
theorem C2_newline_runs (s u m v : List Char)
    (heq : clean_reasoning_output s = u ++ (m ++ v))
    (hws : ∀ c ∈ m, isWS c = true) : m.count '\n' ≤ 2 := by
  by_contra hcon
  push_neg at hcon
  have hnm : noNLmatch (clean_reasoning_output s) := clean_noNLmatch s
  have hmem : '\n' ∈ m := by
    by_contra hno
    rw [List.count_eq_zero.mpr hno] at hcon
    omega
  obtain ⟨m1, m2, hm, hm1⟩ := mem_first_split m hmem
  have hm2ws : ∀ c ∈ m2, isWS c = true := fun c hc => hws c (by rw [hm]; simp [hc])
  have hm2cnt : 2 ≤ m2.count '\n' := by
    rw [hm, List.count_append, List.count_cons, List.count_eq_zero.mpr hm1] at hcon
    simp at hcon
    omega
  have hsfx : '\n' :: (m2 ++ v) <:+ clean_reasoning_output s := by
    refine ⟨u ++ m1, ?_⟩
    rw [heq, hm]
    simp
  have hguard := hnm _ hsfx
  have hm2tk : m2.takeWhile isWS = m2 := by
    have h0 := takeWhile_append_all m2 [] hm2ws
    simpa using h0
  have hge : m2.count '\n' ≤ ((m2 ++ v).takeWhile isWS).count '\n' := by
    have h0 : (m2.takeWhile isWS).count '\n' ≤ ((m2 ++ v).takeWhile isWS).count '\n' :=
      count_takeWhile_append_ge m2 v
    rwa [hm2tk] at h0
  have h3 : 3 ≤ (('\n' :: (m2 ++ v)).takeWhile isWS).count '\n' := by
    rw [List.takeWhile_cons, if_pos (show isWS '\n' = true by decide), List.count_cons,
      if_pos (show (('\n' : Char) == '\n') = true by decide)]
    omega
  have hg : nlGuard ('\n' :: (m2 ++ v)) = true := by
    unfold nlGuard
    simp [h3]
  rw [hguard] at hg
  exact absurd hg (by decide)

/-- Witness for C2 at a concrete input: the output of cleaning `"a"` is
`"a"` itself, decomposed around the empty all-whitespace segment, whose
newline count is at most two. -/
theorem C2_newline_runs_witness :
    clean_reasoning_output ['a'] = [] ++ ([] ++ ['a']) ∧
      (∀ c ∈ ([] : List Char), isWS c = true) ∧
      List.count '\n' ([] : List Char) ≤ 2 :=
  ⟨by decide, by decide, C2_newline_runs ['a'] [] [] ['a'] (by decide) (by decide)⟩

/-- **C7.** No output of `clean_reasoning_output` contains two adjacent
space characters (in particular none within any line), the output never
contains a tab, and the horizontal-whitespace collapsing pass preserves
every newline: the newline count of `collapseSpaces x` equals that of
`x`. -/
theorem C7_space_runs (s u v x : List Char) :
    clean_reasoning_output s ≠ u ++ ' ' :: ' ' :: v ∧
    '\t' ∉ clean_reasoning_output s ∧
    (collapseSpaces x).count '\n' = x.count '\n' := by
  have hprops := clean_noAdj_tab s
  refine ⟨?_, hprops.2, cspAux_countNL x false⟩
  intro heq
  have h1 : noAdjSTB (u ++ ' ' :: ' ' :: v) = true := heq ▸ hprops.1
  have h2 : noAdjSTB (' ' :: ' ' :: v) = true := noAdjSTB_of_append_right h1
  have h3 : (!(isST ' ' && isST ' ') && noAdjSTB (' ' :: v)) = true := h2
  rw [show (!(isST ' ' && isST ' ')) = false from by decide] at h3
  simp at h3

/-- **C3.** `clean_reasoning_output` is idempotent on tag-free input, and
on tag-free input that is already normalized it is the identity. -/
theorem C3_idempotent (s : List Char) (h : tagFree s = true) :
    clean_reasoning_output (clean_reasoning_output s) = clean_reasoning_output s ∧
      (IsNormalized s → clean_reasoning_output s = s) := by
  constructor
  · by_cases hs : s = []
    · subst hs
      rfl
    · rw [clean_eq_pipe hs]
      obtain ⟨hnm, hadj, htab, hN⟩ := normPipe_props (stripTags s)
      by_cases hr0 : normPipe (stripTags s) = []
      · rw [hr0]
        rfl
      · rw [clean_eq_pipe hr0]
        have htf : tagFree (normPipe (stripTags s)) = true := by
          obtain ⟨o1, o2, o3, o4⟩ := clean_no_tags_aux s
          rw [clean_eq_pipe hs] at o1 o2 o3 o4
          unfold tagFree
          rw [o1, o2, o3, o4]
          rfl
        rw [stripTags_id htf]
        exact normPipe_id hN
  · intro hN
    by_cases hs : s = []
    · subst hs
      rfl
    · rw [clean_eq_pipe hs, stripTags_id h]
      exact normPipe_id hN

/-- Witness for C3 at a concrete input: `"hi"` is tag-free, cleaning it is
idempotent, and since it is normalized it is returned unchanged. -/
theorem C3_idempotent_witness :
    tagFree ['h', 'i'] = true ∧
      (clean_reasoning_output (clean_reasoning_output ['h', 'i']) =
          clean_reasoning_output ['h', 'i'] ∧
        (IsNormalized ['h', 'i'] → clean_reasoning_output ['h', 'i'] = ['h', 'i'])) :=
  ⟨by decide, C3_idempotent ['h', 'i'] (by decide)⟩
